import Mathlib

/-!
A verification development for the bip39-shard command line tool
(`src/main.rs`).  The tool splits a BIP39 seed phrase into Shamir shards
and recovers the phrase from a subset of shards.

`main.rs` delegates the mnemonic codec to the `bip39` crate and the
threshold sharing to the `sharks` crate; those two engines are not part of
the repository sources, so they are modelled here from the specification
(each such definition carries a doc comment starting with
"Modelled from the spec:").  The glue that is in `main.rs` — the threshold
check in `split_command`, the shard-line parsing of `parse_recover_args`,
the error plumbing of `recover_command` — is translated directly.

Conventions:
* bytes are `Nat` values below 256; GF(256) elements are the structure
  `GF256`;
* the 2048-entry wordlist is abstracted away: a mnemonic word is
  represented by its 11-bit wordlist index (a `Nat` below 2048); the
  reverse lookup used when parsing shard text lines is an abstract
  parameter `lookup`;
* the SHA-256 checksum hash is an abstract parameter
  `hash : List Nat → List Bool` giving the hash output bit stream of an
  entropy buffer.
-/

namespace BipShard

/-! ## GF(256) arithmetic (FieldArithmetic)

Modelled from the spec: exact arithmetic over GF(256) with the fixed
degree-8 irreducible polynomial `x^8 + x^4 + x^3 + x + 1` (283).
Addition is bitwise XOR; multiplication is carry-less polynomial
multiplication modulo the field polynomial. -/

/-- Multiplication by the polynomial `x` in GF(256): double and, if the
result overflows 8 bits, reduce by the field polynomial 283. -/
def xtime (a : Nat) : Nat :=
  if 256 ≤ 2 * a then 2 * a ^^^ 283 else 2 * a

/-- Russian-peasant carry-less multiplication: `fuel` bounds the number of
bits of the second operand (8 suffices for bytes). -/
def gfMulAux : Nat → Nat → Nat → Nat
  | 0, _, _ => 0
  | fuel + 1, a, b =>
    if b = 0 then 0
    else (if b % 2 = 1 then a else 0) ^^^ gfMulAux fuel (xtime a) (b / 2)

/-- GF(256) multiplication on byte values. -/
def gfMulNat (a b : Nat) : Nat := gfMulAux 8 a b

/-- Square-and-multiply exponentiation in GF(256). -/
def gfPowAux : Nat → Nat → Nat → Nat
  | 0, _, _ => 1
  | fuel + 1, a, n =>
    if n = 0 then 1
    else
      let r := gfPowAux fuel (gfMulNat a a) (n / 2)
      if n % 2 = 1 then gfMulNat a r else r

/-- GF(256) multiplicative inverse, via `a ^ 254` (`0` maps to `0`). -/
def gfInvNat (a : Nat) : Nat := gfPowAux 8 a 254

theorem xtime_zero : xtime 0 = 0 := rfl

set_option maxRecDepth 4000 in
theorem xtime_lt : ∀ a, a < 256 → xtime a < 256 := by decide

theorem two_mul_xor (a b : Nat) : 2 * (a ^^^ b) = 2 * a ^^^ 2 * b := by
  apply Nat.eq_of_testBit_eq
  intro i
  cases i with
  | zero =>
    have e : ∀ n : Nat, (2 * n).testBit 0 = false := by
      intro n
      rw [Nat.testBit_zero]
      simp only [decide_eq_false_iff_not]
      omega
    rw [Nat.testBit_xor, e, e, e]
    rfl
  | succ i =>
    have e : ∀ n : Nat, (2 * n).testBit (i + 1) = n.testBit i := by
      intro n
      rw [Nat.testBit_add_one]
      congr 1
      omega
    rw [e, Nat.testBit_xor, Nat.testBit_xor, e, e]

theorem testBit7_ge (x : Nat) : x.testBit 7 = decide (128 ≤ x % 256) := by
  rw [Nat.testBit_to_div_mod, decide_eq_decide]
  have h : (2 : Nat) ^ 7 = 128 := by norm_num
  rw [h]
  omega

theorem xor_ge_128 {a b : Nat} (ha : a < 256) (hb : b < 256) :
    128 ≤ a ^^^ b ↔ ¬ ((128 ≤ a) ↔ (128 ≤ b)) := by
  have hab : a ^^^ b < 256 := Nat.xor_lt_two_pow (n := 8) ha hb
  have h4 := Nat.testBit_xor a b 7
  rw [testBit7_ge a, testBit7_ge b, testBit7_ge (a ^^^ b),
    Nat.mod_eq_of_lt ha, Nat.mod_eq_of_lt hb, Nat.mod_eq_of_lt hab] at h4
  by_cases p : 128 ≤ a <;> by_cases q : 128 ≤ b <;>
    simp [p, q] at h4 ⊢ <;> omega

theorem xtime_xor : ∀ a, a < 256 → ∀ b, b < 256 →
    xtime (a ^^^ b) = xtime a ^^^ xtime b := by
  intro a ha b hb
  have hab : a ^^^ b < 256 := Nat.xor_lt_two_pow (n := 8) ha hb
  have hmul := two_mul_xor a b
  have hx := xor_ge_128 ha hb
  unfold xtime
  by_cases p : 128 ≤ a <;> by_cases q : 128 ≤ b
  · have hlow : ¬ 128 ≤ a ^^^ b := by
      rw [hx]
      simp [p, q]
    rw [if_neg (show ¬ 256 ≤ 2 * (a ^^^ b) by omega),
      if_pos (show 256 ≤ 2 * a by omega), if_pos (show 256 ≤ 2 * b by omega), hmul,
      Nat.xor_comm (2 * b) 283]
    rw [← Nat.xor_assoc, Nat.xor_assoc (2 * a) 283 283, Nat.xor_self, Nat.xor_zero]
  · have hhigh : 128 ≤ a ^^^ b := hx.mpr (by simp [p, q])
    rw [if_pos (show 256 ≤ 2 * (a ^^^ b) by omega),
      if_pos (show 256 ≤ 2 * a by omega), if_neg (show ¬ 256 ≤ 2 * b by omega), hmul,
      Nat.xor_assoc (2 * a) (2 * b) 283, Nat.xor_comm (2 * b) 283, ← Nat.xor_assoc]
  · have hhigh : 128 ≤ a ^^^ b := hx.mpr (by simp [p, q])
    rw [if_pos (show 256 ≤ 2 * (a ^^^ b) by omega),
      if_neg (show ¬ 256 ≤ 2 * a by omega), if_pos (show 256 ≤ 2 * b by omega), hmul,
      Nat.xor_assoc (2 * a) (2 * b) 283]
  · have hlow : ¬ 128 ≤ a ^^^ b := by
      rw [hx]
      simp [p, q]
    rw [if_neg (show ¬ 256 ≤ 2 * (a ^^^ b) by omega),
      if_neg (show ¬ 256 ≤ 2 * a by omega), if_neg (show ¬ 256 ≤ 2 * b by omega), hmul]

theorem xtime_eq_two_mul {a : Nat} (h : a < 128) : xtime a = 2 * a := by
  unfold xtime
  rw [if_neg]
  omega

theorem gfMulAux_zero_right (fuel a : Nat) : gfMulAux fuel a 0 = 0 := by
  cases fuel <;> simp [gfMulAux]

theorem gfMulAux_succ_def (fuel a b : Nat) :
    gfMulAux (fuel + 1) a b =
      if b = 0 then 0
      else (if b % 2 = 1 then a else 0) ^^^ gfMulAux fuel (xtime a) (b / 2) := rfl

theorem gfMulAux_succ (fuel a b : Nat) (hb : b ≠ 0) :
    gfMulAux (fuel + 1) a b =
      (if b % 2 = 1 then a else 0) ^^^ gfMulAux fuel (xtime a) (b / 2) := by
  rw [gfMulAux_succ_def, if_neg hb]

theorem gfMulAux_zero_left (fuel : Nat) : ∀ b, gfMulAux fuel 0 b = 0 := by
  induction fuel with
  | zero => intro b; rfl
  | succ fuel ih =>
    intro b
    rcases Nat.eq_zero_or_pos b with hb | hb
    · simp [hb, gfMulAux_zero_right]
    · rw [gfMulAux_succ fuel 0 b (by omega), xtime_zero, ih]
      rcases Nat.mod_two_eq_zero_or_one b with h2 | h2 <;> simp [h2]

theorem gfMulAux_lt (fuel : Nat) : ∀ a b, a < 256 → gfMulAux fuel a b < 256 := by
  induction fuel with
  | zero => intro a b _; simp [gfMulAux]
  | succ fuel ih =>
    intro a b ha
    rcases Nat.eq_zero_or_pos b with hb | hb
    · simp [hb, gfMulAux_zero_right]
    · rw [gfMulAux_succ fuel a b (by omega)]
      have h1 : (if b % 2 = 1 then a else 0) < 256 := by
        rcases Nat.mod_two_eq_zero_or_one b with h2 | h2 <;> simp [h2] <;> omega
      exact Nat.xor_lt_two_pow (n := 8) h1 (ih (xtime a) (b / 2) (xtime_lt a ha))

theorem gfMulAux_fuel_le (fuel : Nat) :
    ∀ gas a b, b < 2 ^ fuel → fuel ≤ gas → gfMulAux fuel a b = gfMulAux gas a b := by
  induction fuel with
  | zero =>
    intro gas a b hb _
    have hb0 : b = 0 := by omega
    subst hb0
    rw [gfMulAux_zero_right, gfMulAux_zero_right]
  | succ fuel ih =>
    intro gas a b hb hle
    obtain ⟨gas, rfl⟩ : ∃ g, gas = g + 1 := ⟨gas - 1, by omega⟩
    rcases Nat.eq_zero_or_pos b with hb0 | hb0
    · subst hb0
      rw [gfMulAux_zero_right, gfMulAux_zero_right]
    · rw [gfMulAux_succ fuel a b (by omega), gfMulAux_succ gas a b (by omega),
        ih gas (xtime a) (b / 2) (by rw [Nat.pow_succ] at hb; omega) (by omega)]

/-- A four-way XOR regrouping helper. -/
theorem xor_mix (p x q y : Nat) :
    (p ^^^ x) ^^^ (q ^^^ y) = (p ^^^ q) ^^^ (x ^^^ y) := by
  rw [Nat.xor_assoc, Nat.xor_assoc]
  congr 1
  rw [← Nat.xor_assoc, ← Nat.xor_assoc, Nat.xor_comm x q]

theorem ite_parity_xor (a b c : Nat) :
    (if (b ^^^ c) % 2 = 1 then a else 0) =
      (if b % 2 = 1 then a else 0) ^^^ (if c % 2 = 1 then a else 0) := by
  have hx : ((b ^^^ c) % 2 = 1) ↔ ¬ ((b % 2 = 1) ↔ (c % 2 = 1)) :=
    Nat.xor_mod_two_eq_one
  rcases Nat.mod_two_eq_zero_or_one b with h2 | h2 <;>
    rcases Nat.mod_two_eq_zero_or_one c with h3 | h3
  · rw [if_neg (by rw [hx]; simp [h2, h3]), if_neg (by omega), if_neg (by omega)]
    simp
  · rw [if_pos (by rw [hx]; simp [h2, h3]), if_neg (by omega), if_pos h3]
    simp
  · rw [if_pos (by rw [hx]; simp [h2, h3]), if_pos h2, if_neg (by omega)]
    simp
  · rw [if_neg (by rw [hx]; simp [h2, h3]), if_pos h2, if_pos h3]
    rw [Nat.xor_self]

/-- GF(256) multiplication is linear in its second argument (addition is XOR). -/
theorem gfMulAux_xor_right (fuel : Nat) :
    ∀ a b c, b < 2 ^ fuel → c < 2 ^ fuel →
      gfMulAux fuel a (b ^^^ c) = gfMulAux fuel a b ^^^ gfMulAux fuel a c := by
  induction fuel with
  | zero =>
    intro a b c hb hc
    have hb0 : b = 0 := by omega
    have hc0 : c = 0 := by omega
    subst hb0; subst hc0
    simp [gfMulAux_zero_right]
  | succ fuel ih =>
    intro a b c hb hc
    rcases Nat.eq_zero_or_pos b with hb0 | hb0
    · subst hb0; simp [gfMulAux_zero_right]
    rcases Nat.eq_zero_or_pos c with hc0 | hc0
    · subst hc0; simp [gfMulAux_zero_right]
    rcases Nat.eq_zero_or_pos (b ^^^ c) with hbc | hbc
    · have hbc2 : b = c := by
        have h := congrArg (fun t => t ^^^ c) hbc
        simpa [Nat.xor_assoc] using h
      subst hbc2
      rw [hbc, gfMulAux_zero_right, Nat.xor_self]
    rw [gfMulAux_succ fuel a (b ^^^ c) (by omega), gfMulAux_succ fuel a b (by omega),
      gfMulAux_succ fuel a c (by omega), Nat.xor_div_two,
      ih (xtime a) (b / 2) (c / 2) (by rw [Nat.pow_succ] at hb; omega)
        (by rw [Nat.pow_succ] at hc; omega),
      ite_parity_xor, xor_mix]

/-- GF(256) multiplication is linear in its first argument. -/
theorem gfMulAux_xor_left (fuel : Nat) :
    ∀ a c b, a < 256 → c < 256 →
      gfMulAux fuel (a ^^^ c) b = gfMulAux fuel a b ^^^ gfMulAux fuel c b := by
  induction fuel with
  | zero => intro a c b _ _; simp [gfMulAux]
  | succ fuel ih =>
    intro a c b ha hc
    rcases Nat.eq_zero_or_pos b with hb0 | hb0
    · subst hb0; simp [gfMulAux_zero_right]
    rw [gfMulAux_succ fuel (a ^^^ c) b (by omega), gfMulAux_succ fuel a b (by omega),
      gfMulAux_succ fuel c b (by omega), xtime_xor a ha c hc,
      ih (xtime a) (xtime c) (b / 2) (xtime_lt a ha) (xtime_lt c hc), xor_mix]
    congr 1
    rcases Nat.mod_two_eq_zero_or_one b with h2 | h2 <;> simp [h2]

/-- Multiplying by `xtime a` is `xtime` of the product. -/
theorem gfMulAux_xtime_left (fuel : Nat) :
    ∀ a b, a < 256 → gfMulAux fuel (xtime a) b = xtime (gfMulAux fuel a b) := by
  induction fuel with
  | zero => intro a b _; simp [gfMulAux, xtime_zero]
  | succ fuel ih =>
    intro a b ha
    rcases Nat.eq_zero_or_pos b with hb0 | hb0
    · subst hb0
      rw [gfMulAux_zero_right, gfMulAux_zero_right, xtime_zero]
    rw [gfMulAux_succ fuel (xtime a) b (by omega), gfMulAux_succ fuel a b (by omega)]
    have h1 : (if b % 2 = 1 then a else 0) < 256 := by
      rcases Nat.mod_two_eq_zero_or_one b with h2 | h2 <;> simp [h2] <;> omega
    rw [ih (xtime a) (b / 2) (xtime_lt a ha),
      xtime_xor _ h1 _ (gfMulAux_lt fuel (xtime a) (b / 2) (xtime_lt a ha))]
    congr 1
    rcases Nat.mod_two_eq_zero_or_one b with h2 | h2 <;> simp [h2, xtime_zero]

theorem gfMulNat_zero_right (a : Nat) : gfMulNat a 0 = 0 := gfMulAux_zero_right 8 a

theorem gfMulNat_zero_left (b : Nat) : gfMulNat 0 b = 0 := gfMulAux_zero_left 8 b

theorem gfMulNat_lt (a b : Nat) (ha : a < 256) : gfMulNat a b < 256 :=
  gfMulAux_lt 8 a b ha

theorem gfMulNat_xor_right (a b c : Nat) (hb : b < 256) (hc : c < 256) :
    gfMulNat a (b ^^^ c) = gfMulNat a b ^^^ gfMulNat a c :=
  gfMulAux_xor_right 8 a b c (by norm_num; omega) (by norm_num; omega)

theorem gfMulNat_xor_left (a c b : Nat) (ha : a < 256) (hc : c < 256) :
    gfMulNat (a ^^^ c) b = gfMulNat a b ^^^ gfMulNat c b :=
  gfMulAux_xor_left 8 a c b ha hc

theorem gfMulNat_xtime_left (a b : Nat) (ha : a < 256) :
    gfMulNat (xtime a) b = xtime (gfMulNat a b) :=
  gfMulAux_xtime_left 8 a b ha

theorem gfMulNat_unfold (a b : Nat) (ha : a < 256) (hb : b < 256) :
    gfMulNat a b = (if b % 2 = 1 then a else 0) ^^^ xtime (gfMulNat a (b / 2)) := by
  rcases Nat.eq_zero_or_pos b with hb0 | hb0
  · subst hb0
    simp [gfMulNat_zero_right, xtime_zero]
  · show gfMulAux 8 a b = _
    rw [gfMulAux_succ 7 a b (by omega),
      gfMulAux_fuel_le 7 8 (xtime a) (b / 2)
        (by have h7 : (2 : Nat) ^ 7 = 128 := by norm_num
            omega)
        (by omega),
      gfMulAux_xtime_left 8 a (b / 2) ha]
    rfl

set_option maxRecDepth 4000 in
theorem bit_decomp : ∀ b, b < 256 → b % 2 ^^^ 2 * (b / 2) = b := by decide

theorem gfMulNat_one_left : ∀ b, b < 256 → gfMulNat 1 b = b := by
  intro b
  induction b using Nat.strong_induction_on with
  | _ b ih =>
    intro hb
    rcases Nat.eq_zero_or_pos b with hb0 | hb0
    · subst hb0; exact gfMulNat_zero_right 1
    rw [gfMulNat_unfold 1 b (by omega) hb, ih (b / 2) (by omega) (by omega),
      xtime_eq_two_mul (show b / 2 < 128 by omega)]
    rcases Nat.mod_two_eq_zero_or_one b with h2 | h2
    · rw [if_neg (by omega)]
      have h := bit_decomp b hb
      rw [h2] at h
      simpa using h
    · rw [if_pos h2]
      have h := bit_decomp b hb
      rw [h2] at h
      exact h

theorem gfMulNat_comm : ∀ b, b < 256 → ∀ a, a < 256 → gfMulNat a b = gfMulNat b a := by
  intro b
  induction b using Nat.strong_induction_on with
  | _ b ih =>
    intro hb a ha
    rcases Nat.eq_zero_or_pos b with hb0 | hb0
    · subst hb0; rw [gfMulNat_zero_right, gfMulNat_zero_left]
    have hb2 : b / 2 < 256 := by omega
    rw [gfMulNat_unfold a b ha hb, ih (b / 2) (by omega) hb2 a ha,
      ← gfMulNat_xtime_left (b / 2) a hb2]
    conv_rhs => rw [← bit_decomp b hb]
    rw [gfMulNat_xor_left (b % 2) (2 * (b / 2)) a (by omega) (by omega),
      ← xtime_eq_two_mul (show b / 2 < 128 by omega)]
    congr 1
    rcases Nat.mod_two_eq_zero_or_one b with h2 | h2
    · rw [h2, if_neg (by omega), gfMulNat_zero_left]
    · rw [h2, if_pos rfl, gfMulNat_one_left a ha]

theorem gfMulNat_one_right (a : Nat) (ha : a < 256) : gfMulNat a 1 = a := by
  rw [gfMulNat_comm 1 (by omega) a ha, gfMulNat_one_left a ha]

theorem gfMulNat_xtime_right (a y : Nat) (ha : a < 256) (hy : y < 256) :
    gfMulNat a (xtime y) = xtime (gfMulNat a y) := by
  rw [gfMulNat_comm (xtime y) (xtime_lt y hy) a ha, gfMulNat_xtime_left y a hy,
    gfMulNat_comm a ha y hy]

theorem gfMulNat_assoc :
    ∀ c, c < 256 → ∀ a b, a < 256 → b < 256 →
      gfMulNat (gfMulNat a b) c = gfMulNat a (gfMulNat b c) := by
  intro c
  induction c using Nat.strong_induction_on with
  | _ c ih =>
    intro hc a b ha hb
    rcases Nat.eq_zero_or_pos c with hc0 | hc0
    · subst hc0
      rw [gfMulNat_zero_right, gfMulNat_zero_right, gfMulNat_zero_right]
    have hab : gfMulNat a b < 256 := gfMulNat_lt a b ha
    have hbc2 : gfMulNat b (c / 2) < 256 := gfMulNat_lt b (c / 2) hb
    rw [gfMulNat_unfold (gfMulNat a b) c hab hc,
      ih (c / 2) (by omega) (by omega) a b ha hb,
      gfMulNat_unfold b c hb hc,
      gfMulNat_xor_right a (if c % 2 = 1 then b else 0) (xtime (gfMulNat b (c / 2)))
        (by rcases Nat.mod_two_eq_zero_or_one c with h2 | h2 <;> simp [h2] <;> omega)
        (xtime_lt _ hbc2),
      gfMulNat_xtime_right a (gfMulNat b (c / 2)) ha hbc2]
    congr 1
    rcases Nat.mod_two_eq_zero_or_one c with h2 | h2
    · rw [h2, if_neg (by omega), if_neg (by omega), gfMulNat_zero_right]
    · rw [h2, if_pos rfl, if_pos rfl]

set_option maxRecDepth 4000 in
theorem gfInvNat_lt : ∀ a, a < 256 → gfInvNat a < 256 := by decide

set_option maxRecDepth 40000 in
set_option maxHeartbeats 1000000 in
theorem gfMulNat_inv_cancel : ∀ a, a < 256 → a ≠ 0 → gfMulNat a (gfInvNat a) = 1 := by
  decide

theorem gfInvNat_zero : gfInvNat 0 = 0 := by decide

/-- A GF(256) field element: a byte value. -/
structure GF256 where
  val : Nat
  isLt : val < 256

theorem GF256.val_inj : ∀ {a b : GF256}, a.val = b.val → a = b := by
  intro a b h
  cases a
  cases b
  simp_all

instance : DecidableEq GF256 := fun a b =>
  decidable_of_iff (a.val = b.val) ⟨fun h => GF256.val_inj h, fun h => by rw [h]⟩

instance : Zero GF256 := ⟨⟨0, by omega⟩⟩

instance : One GF256 := ⟨⟨1, by omega⟩⟩

instance : Add GF256 :=
  ⟨fun a b => ⟨a.val ^^^ b.val, Nat.xor_lt_two_pow (n := 8) a.isLt b.isLt⟩⟩

instance : Mul GF256 := ⟨fun a b => ⟨gfMulNat a.val b.val, gfMulNat_lt _ _ a.isLt⟩⟩

/-- In characteristic 2 every element is its own additive inverse. -/
instance : Neg GF256 := ⟨fun a => a⟩

instance : Inv GF256 := ⟨fun a => ⟨gfInvNat a.val, gfInvNat_lt a.val a.isLt⟩⟩

theorem GF256.val_zero : (0 : GF256).val = 0 := rfl

theorem GF256.val_one : (1 : GF256).val = 1 := rfl

theorem GF256.val_add (a b : GF256) : (a + b).val = a.val ^^^ b.val := rfl

theorem GF256.val_mul (a b : GF256) : (a * b).val = gfMulNat a.val b.val := rfl

theorem GF256.val_inv (a : GF256) : (a⁻¹).val = gfInvNat a.val := rfl

instance instFieldGF256 : Field GF256 :=
  Field.ofMinimalAxioms GF256
    (fun a b c => GF256.val_inj (by
      rw [GF256.val_add, GF256.val_add, GF256.val_add, GF256.val_add, Nat.xor_assoc]))
    (fun a => GF256.val_inj (by rw [GF256.val_add, GF256.val_zero, Nat.zero_xor]))
    (fun a => GF256.val_inj (Nat.xor_self a.val))
    (fun a b c => GF256.val_inj (by
      rw [GF256.val_mul, GF256.val_mul, GF256.val_mul, GF256.val_mul,
        gfMulNat_assoc c.val c.isLt a.val b.val a.isLt b.isLt]))
    (fun a b => GF256.val_inj (by
      rw [GF256.val_mul, GF256.val_mul, gfMulNat_comm b.val b.isLt a.val a.isLt]))
    (fun a => GF256.val_inj (by
      rw [GF256.val_mul, GF256.val_one, gfMulNat_one_left a.val a.isLt]))
    (fun a ha => GF256.val_inj (by
      rw [GF256.val_mul, GF256.val_inv, GF256.val_one,
        gfMulNat_inv_cancel a.val a.isLt
          (fun h0 => ha (GF256.val_inj (by rw [h0, GF256.val_zero])))]))
    (GF256.val_inj (by rw [GF256.val_inv, GF256.val_zero, gfInvNat_zero]))
    (fun a b c => GF256.val_inj (by
      rw [GF256.val_mul, GF256.val_add, GF256.val_add, GF256.val_mul, GF256.val_mul,
        gfMulNat_xor_right a.val b.val c.val b.isLt c.isLt]))
    (by exact ⟨0, 1, by decide⟩)

theorem GF256.neg_eq (a : GF256) : -a = a := rfl

theorem GF256.sub_eq_add (a b : GF256) : a - b = a + b := by
  rw [sub_eq_add_neg, GF256.neg_eq]

/-- Coerce a byte (`u8`) value into GF(256). -/
def mkGF (n : Nat) : GF256 := ⟨n % 256, Nat.mod_lt n (by omega)⟩

theorem val_mkGF (n : Nat) : (mkGF n).val = n % 256 := rfl

theorem mkGF_val (a : GF256) : mkGF a.val = a :=
  GF256.val_inj (by rw [val_mkGF, Nat.mod_eq_of_lt a.isLt])


/-! ## Bit strings for the mnemonic codec -/

/-- The low `w` bits of `n`, most significant bit first. -/
def natToBits : Nat → Nat → List Bool
  | 0, _ => []
  | w + 1, n => n.testBit w :: natToBits w n

/-- Read a bit list (most significant bit first) back as a number. -/
def bitsToNat : List Bool → Nat
  | [] => 0
  | b :: bs => (if b then 2 ^ bs.length else 0) + bitsToNat bs

/-- Split a list into chunks of `k + 1` elements; `fuel` must be at least
the length of the list (structural recursion so that it evaluates). -/
def chunksFuel (k : Nat) : Nat → List α → List (List α)
  | _, [] => []
  | 0, l => [l]
  | fuel + 1, l => l.take (k + 1) :: chunksFuel k fuel (l.drop (k + 1))

theorem chunksFuel_nil (k fuel : Nat) : chunksFuel k fuel ([] : List α) = [] := by
  cases fuel <;> rfl

theorem chunksFuel_succ_cons (k fuel : Nat) (a : α) (t : List α) :
    chunksFuel k (fuel + 1) (a :: t) =
      (a :: t).take (k + 1) :: chunksFuel k fuel ((a :: t).drop (k + 1)) := rfl

theorem natToBits_length (w : Nat) : ∀ n, (natToBits w n).length = w := by
  induction w with
  | zero => intro n; rfl
  | succ w ih => intro n; simp [natToBits, ih]

theorem bitsToNat_lt : ∀ bs : List Bool, bitsToNat bs < 2 ^ bs.length := by
  intro bs
  induction bs with
  | nil => simp [bitsToNat]
  | cons b bs ih =>
    simp only [bitsToNat, List.length_cons, Nat.pow_succ]
    rcases b <;> simp <;> omega

theorem bitsToNat_natToBits (w : Nat) : ∀ n, bitsToNat (natToBits w n) = n % 2 ^ w := by
  induction w with
  | zero => intro n; simp [natToBits, bitsToNat, Nat.mod_one]
  | succ w ih =>
    intro n
    have hmod : n % 2 ^ (w + 1) = n % 2 ^ w + 2 ^ w * (n / 2 ^ w % 2) := by
      rw [Nat.pow_succ]
      exact Nat.mod_mul
    simp only [natToBits, bitsToNat, natToBits_length, ih]
    rw [Nat.testBit_to_div_mod]
    rcases Nat.mod_two_eq_zero_or_one (n / 2 ^ w) with h2 | h2 <;>
      rw [h2] at hmod <;> simp [h2] <;> omega

theorem natToBits_congr (w : Nat) :
    ∀ m n, (∀ i, i < w → m.testBit i = n.testBit i) → natToBits w m = natToBits w n := by
  induction w with
  | zero => intro m n _; rfl
  | succ w ih =>
    intro m n h
    simp only [natToBits]
    rw [h w (by omega), ih m n (fun i hi => h i (by omega))]

theorem natToBits_bitsToNat : ∀ bs : List Bool, natToBits bs.length (bitsToNat bs) = bs := by
  intro bs
  induction bs with
  | nil => rfl
  | cons b bs ih =>
    have hm : bitsToNat bs < 2 ^ bs.length := bitsToNat_lt bs
    have hpos : 0 < 2 ^ bs.length := Nat.pos_pow_of_pos _ (by omega)
    simp only [List.length_cons, bitsToNat]
    show Nat.testBit _ bs.length :: natToBits bs.length _ = b :: bs
    have htb : Nat.testBit ((if b then 2 ^ bs.length else 0) + bitsToNat bs) bs.length = b := by
      rw [Nat.testBit_to_div_mod]
      rcases b with _ | _
      · rw [if_neg (by simp), Nat.zero_add, Nat.div_eq_of_lt hm]
        simp
      · rw [if_pos rfl]
        have hdiv : (2 ^ bs.length + bitsToNat bs) / 2 ^ bs.length = 1 := by
          rw [Nat.add_comm, Nat.add_div_right _ hpos, Nat.div_eq_of_lt hm]
        rw [hdiv]
        simp
    have hrest : natToBits bs.length ((if b then 2 ^ bs.length else 0) + bitsToNat bs) =
        natToBits bs.length (bitsToNat bs) := by
      rcases b with _ | _
      · rw [if_neg (by simp), Nat.zero_add]
      · rw [if_pos rfl]
        apply natToBits_congr
        intro i hi
        rw [Nat.testBit_to_div_mod, Nat.testBit_to_div_mod]
        have hsplit : 2 ^ bs.length = 2 ^ i * 2 ^ (bs.length - i) := by
          rw [← Nat.pow_add]
          congr 1
          omega
        rw [hsplit, Nat.mul_add_div (Nat.pos_pow_of_pos _ (by omega))]
        obtain ⟨j, hj⟩ : ∃ j, bs.length - i = j + 1 := ⟨bs.length - i - 1, by omega⟩
        rw [hj, Nat.pow_succ, Nat.add_comm, Nat.add_mul_mod_self_right]
    rw [htb, hrest, ih]

theorem chunksFuel_flatten (k : Nat) :
    ∀ fuel (l : List α), l.length ≤ fuel → (chunksFuel k fuel l).flatten = l := by
  intro fuel
  induction fuel with
  | zero =>
    intro l hl
    have : l = [] := List.length_eq_zero.mp (by omega)
    subst this
    rw [chunksFuel_nil]
    rfl
  | succ fuel ih =>
    intro l hl
    cases l with
    | nil => rw [chunksFuel_nil]; rfl
    | cons a t =>
      rw [chunksFuel_succ_cons, List.flatten_cons,
        ih ((a :: t).drop (k + 1))
          (by simp only [List.length_drop, List.length_cons] at hl ⊢; omega),
        List.take_append_drop]

theorem chunksFuel_length_mem (k : Nat) :
    ∀ fuel (l : List α) c, l.length ≤ fuel → (k + 1) ∣ l.length →
      c ∈ chunksFuel k fuel l → c.length = k + 1 := by
  intro fuel
  induction fuel with
  | zero =>
    intro l c hl _ hc
    have : l = [] := List.length_eq_zero.mp (by omega)
    subst this
    rw [chunksFuel_nil] at hc
    cases hc
  | succ fuel ih =>
    intro l c hl hdvd hc
    cases l with
    | nil => rw [chunksFuel_nil] at hc; cases hc
    | cons a t =>
      have hge : k + 1 ≤ (a :: t).length :=
        Nat.le_of_dvd (by simp) hdvd
      rw [chunksFuel_succ_cons] at hc
      rcases List.mem_cons.mp hc with h | h
      · subst h
        rw [List.length_take]
        omega
      · exact ih _ c
          (by simp only [List.length_drop, List.length_cons] at hl ⊢; omega)
          (by rw [List.length_drop]; exact Nat.dvd_sub' hdvd dvd_rfl) h

theorem chunksFuel_flatten_map (k : Nat) (f : α → List β) (hf : ∀ x, (f x).length = k + 1) :
    ∀ (xs : List α) fuel, (xs.map f).flatten.length ≤ fuel →
      chunksFuel k fuel (xs.map f).flatten = xs.map f := by
  intro xs
  induction xs with
  | nil => intro fuel _; simp [chunksFuel_nil]
  | cons x t ih =>
    intro fuel hfuel
    rw [List.map_cons, List.flatten_cons] at hfuel ⊢
    have hx : (f x).length = k + 1 := hf x
    have hne : f x ++ (t.map f).flatten ≠ [] := by
      intro h
      have := congrArg List.length h
      simp [hx] at this
    obtain ⟨gas, rfl⟩ : ∃ g, fuel = g + 1 := by
      cases fuel with
      | zero =>
        exfalso
        apply hne
        apply List.length_eq_zero.mp
        simp at hfuel
        simp [hfuel]
      | succ g => exact ⟨g, rfl⟩
    obtain ⟨y, ys, hys⟩ : ∃ y ys, f x ++ (t.map f).flatten = y :: ys := by
      cases h : f x ++ (t.map f).flatten with
      | nil => exact absurd h hne
      | cons y ys => exact ⟨y, ys, rfl⟩
    rw [hys, chunksFuel_succ_cons, ← hys,
      List.take_left' hx, List.drop_left' hx]
    congr 1
    apply ih
    simp only [List.length_append] at hfuel
    rw [hx] at hfuel
    omega

/-- The entropy byte string as a bit string, most significant bit first. -/
def bytesToBits (e : List Nat) : List Bool := (e.map (natToBits 8)).flatten

/-- Reassemble a bit string into bytes. -/
def bitsToBytes (bs : List Bool) : List Nat :=
  (chunksFuel 7 bs.length bs).map bitsToNat

/-- A word-index sequence as the underlying bit string. -/
def wordsToBits (ws : List Nat) : List Bool := (ws.map (natToBits 11)).flatten

/-- Split a bit string into 11-bit groups, most significant bit first, and
read each group as a wordlist index. -/
def bitsToWords (bs : List Bool) : List Nat :=
  (chunksFuel 10 bs.length bs).map bitsToNat

theorem bytesToBits_length (e : List Nat) : (bytesToBits e).length = 8 * e.length := by
  unfold bytesToBits
  rw [List.length_flatten, List.map_map]
  have : e.map (List.length ∘ natToBits 8) = e.map (fun _ => 8) :=
    List.map_congr_left (fun a _ => by simp [natToBits_length])
  rw [this, List.map_const', List.sum_replicate, smul_eq_mul, Nat.mul_comm]

theorem wordsToBits_length (ws : List Nat) : (wordsToBits ws).length = 11 * ws.length := by
  unfold wordsToBits
  rw [List.length_flatten, List.map_map]
  have : ws.map (List.length ∘ natToBits 11) = ws.map (fun _ => 11) :=
    List.map_congr_left (fun a _ => by simp [natToBits_length])
  rw [this, List.map_const', List.sum_replicate, smul_eq_mul, Nat.mul_comm]

theorem bitsToBytes_eq (e : List Nat) (he : ∀ b ∈ e, b < 256) :
    bitsToBytes (bytesToBits e) = e := by
  unfold bitsToBytes bytesToBits
  rw [chunksFuel_flatten_map 7 (natToBits 8) (fun x => natToBits_length 8 x) e _ le_rfl,
    List.map_map]
  calc e.map (bitsToNat ∘ natToBits 8) = e.map id := by
        apply List.map_congr_left
        intro a ha
        simp only [Function.comp_apply, bitsToNat_natToBits, id]
        exact Nat.mod_eq_of_lt (by have := he a ha; norm_num; omega)
    _ = e := List.map_id e

theorem bitsToWords_eq (ws : List Nat) (hw : ∀ w ∈ ws, w < 2048) :
    bitsToWords (wordsToBits ws) = ws := by
  unfold bitsToWords wordsToBits
  rw [chunksFuel_flatten_map 10 (natToBits 11) (fun x => natToBits_length 11 x) ws _ le_rfl,
    List.map_map]
  calc ws.map (bitsToNat ∘ natToBits 11) = ws.map id := by
        apply List.map_congr_left
        intro a ha
        simp only [Function.comp_apply, bitsToNat_natToBits, id]
        exact Nat.mod_eq_of_lt (by have := hw a ha; norm_num; omega)
    _ = ws := List.map_id ws

theorem bytesToBits_bitsToBytes (bs : List Bool) (h8 : 8 ∣ bs.length) :
    bytesToBits (bitsToBytes bs) = bs := by
  unfold bytesToBits bitsToBytes
  rw [List.map_map]
  have hmem : ∀ c ∈ chunksFuel 7 bs.length bs, (natToBits 8 ∘ bitsToNat) c = c := by
    intro c hc
    have hlen : c.length = 8 := chunksFuel_length_mem 7 bs.length bs c le_rfl h8 hc
    simp only [Function.comp_apply]
    rw [← hlen, natToBits_bitsToNat]
  rw [List.map_congr_left hmem, List.map_id', chunksFuel_flatten 7 bs.length bs le_rfl]

theorem wordsToBits_bitsToWords (bs : List Bool) (h11 : 11 ∣ bs.length) :
    wordsToBits (bitsToWords bs) = bs := by
  unfold wordsToBits bitsToWords
  rw [List.map_map]
  have hmem : ∀ c ∈ chunksFuel 10 bs.length bs, (natToBits 11 ∘ bitsToNat) c = c := by
    intro c hc
    have hlen : c.length = 11 := chunksFuel_length_mem 10 bs.length bs c le_rfl h11 hc
    simp only [Function.comp_apply]
    rw [← hlen, natToBits_bitsToNat]
  rw [List.map_congr_left hmem, List.map_id', chunksFuel_flatten 10 bs.length bs le_rfl]

theorem bitsToWords_mem_lt (bs : List Bool) (h11 : 11 ∣ bs.length) :
    ∀ w ∈ bitsToWords bs, w < 2048 := by
  intro w hw
  unfold bitsToWords at hw
  rcases List.mem_map.mp hw with ⟨c, hc, rfl⟩
  have hlen : c.length = 11 := chunksFuel_length_mem 10 bs.length bs c le_rfl h11 hc
  have := bitsToNat_lt c
  rw [hlen] at this
  norm_num at this
  exact this

theorem bitsToBytes_mem_lt (bs : List Bool) (h8 : 8 ∣ bs.length) :
    ∀ b ∈ bitsToBytes bs, b < 256 := by
  intro b hb
  unfold bitsToBytes at hb
  rcases List.mem_map.mp hb with ⟨c, hc, rfl⟩
  have hlen : c.length = 8 := chunksFuel_length_mem 7 bs.length bs c le_rfl h8 hc
  have := bitsToNat_lt c
  rw [hlen] at this
  norm_num at this
  exact this

theorem bitsToWords_length (bs : List Bool) (h11 : 11 ∣ bs.length) :
    (bitsToWords bs).length = bs.length / 11 := by
  have hflat := chunksFuel_flatten 10 bs.length bs le_rfl
  have hlen := congrArg List.length hflat
  rw [List.length_flatten] at hlen
  have hmap : (chunksFuel 10 bs.length bs).map List.length =
      (chunksFuel 10 bs.length bs).map (fun _ => 11) :=
    List.map_congr_left (fun c hc => chunksFuel_length_mem 10 bs.length bs c le_rfl h11 hc)
  rw [hmap, List.map_const', List.sum_replicate, smul_eq_mul] at hlen
  unfold bitsToWords
  rw [List.length_map]
  omega

theorem bitsToBytes_length (bs : List Bool) (h8 : 8 ∣ bs.length) :
    (bitsToBytes bs).length = bs.length / 8 := by
  have hflat := chunksFuel_flatten 7 bs.length bs le_rfl
  have hlen := congrArg List.length hflat
  rw [List.length_flatten] at hlen
  have hmap : (chunksFuel 7 bs.length bs).map List.length =
      (chunksFuel 7 bs.length bs).map (fun _ => 8) :=
    List.map_congr_left (fun c hc => chunksFuel_length_mem 7 bs.length bs c le_rfl h8 hc)
  rw [hmap, List.map_const', List.sum_replicate, smul_eq_mul] at hlen
  unfold bitsToBytes
  rw [List.length_map]
  omega

/-! ## MnemonicCodec

Modelled from the spec: the bijective, checksummed mapping between entropy
and a word sequence.  Words are represented by their 11-bit wordlist
indices; the cryptographic hash used for the checksum is the abstract
parameter `hash`, of which the spec uses the first `len(entropy)/4` bits. -/

inductive CodecError
  | InvalidEntropyLength
  | InvalidWordCount
  | UnknownWord (w : Nat)
  | ChecksumMismatch
  deriving DecidableEq

/-- Valid entropy byte lengths per the spec: {16, 20, 24, 28, 32}. -/
def validEntropyLen (n : Nat) : Bool :=
  n == 16 || n == 20 || n == 24 || n == 28 || n == 32

/-- Valid mnemonic word counts per the spec: {12, 15, 18, 21, 24}. -/
def validWordCount (n : Nat) : Bool :=
  n == 12 || n == 15 || n == 18 || n == 21 || n == 24

/-- The word sequence of a valid entropy buffer: entropy bits followed by
the first `len/4` bits of the hash, split into 11-bit groups. -/
def encWords (hash : List Nat → List Bool) (e : List Nat) : List Nat :=
  bitsToWords (bytesToBits e ++ (hash e).take (e.length / 4))

/-- Modelled from the spec: `MnemonicCodec.encode`. -/
def mnemonicEncode (hash : List Nat → List Bool) (e : List Nat) :
    Except CodecError (List Nat) :=
  if validEntropyLen e.length then .ok (encWords hash e)
  else .error .InvalidEntropyLength

/-- Modelled from the spec: `MnemonicCodec.decode`.  Checks, in the spec
order: every word is in the wordlist (an index below 2048), the word count
is valid, and the checksum bits recomputed from the recovered entropy match
the embedded checksum bits. -/
def mnemonicDecode (hash : List Nat → List Bool) (ws : List Nat) :
    Except CodecError (List Nat) :=
  match ws.find? (fun w => decide (2048 ≤ w)) with
  | some w => .error (.UnknownWord w)
  | none =>
    if validWordCount ws.length then
      if (hash (bitsToBytes ((wordsToBits ws).take (8 * (ws.length * 4 / 3))))).take
            (ws.length * 4 / 3 / 4) =
          (wordsToBits ws).drop (8 * (ws.length * 4 / 3)) then
        .ok (bitsToBytes ((wordsToBits ws).take (8 * (ws.length * 4 / 3))))
      else .error .ChecksumMismatch
    else .error .InvalidWordCount

theorem validEntropyLen_cases {L : Nat} (h : validEntropyLen L = true) :
    L = 16 ∨ L = 20 ∨ L = 24 ∨ L = 28 ∨ L = 32 := by
  simp only [validEntropyLen, Bool.or_eq_true, beq_iff_eq] at h
  tauto

theorem validWordCount_cases {W : Nat} (h : validWordCount W = true) :
    W = 12 ∨ W = 15 ∨ W = 18 ∨ W = 21 ∨ W = 24 := by
  simp only [validWordCount, Bool.or_eq_true, beq_iff_eq] at h
  tauto

theorem entropyLen_facts {L : Nat} (h : validEntropyLen L = true) :
    L / 4 ≤ 8 ∧ 11 ∣ (8 * L + L / 4) ∧ validWordCount ((8 * L + L / 4) / 11) = true ∧
      (8 * L + L / 4) / 11 * 4 / 3 = L := by
  rcases validEntropyLen_cases h with rfl | rfl | rfl | rfl | rfl <;> decide

theorem wordCount_facts {W : Nat} (h : validWordCount W = true) :
    validEntropyLen (W * 4 / 3) = true ∧ 8 * (W * 4 / 3) ≤ 11 * W ∧
      16 ≤ W * 4 / 3 := by
  rcases validWordCount_cases h with rfl | rfl | rfl | rfl | rfl <;> decide

/-- Round trip: decoding the encoding of valid entropy returns it exactly. -/
theorem mnemonicDecode_encWords (hash : List Nat → List Bool) (e : List Nat)
    (he : validEntropyLen e.length = true) (hb : ∀ b ∈ e, b < 256)
    (hh : 8 ≤ (hash e).length) :
    mnemonicDecode hash (encWords hash e) = .ok e := by
  obtain ⟨hL4, hdvd, hWC, hWL⟩ := entropyLen_facts he
  have htake : ((hash e).take (e.length / 4)).length = e.length / 4 := by
    rw [List.length_take]
    omega
  have hbits : (bytesToBits e ++ (hash e).take (e.length / 4)).length =
      8 * e.length + e.length / 4 := by
    rw [List.length_append, bytesToBits_length, htake]
  have hdvd2 : 11 ∣ (bytesToBits e ++ (hash e).take (e.length / 4)).length := by
    rw [hbits]; exact hdvd
  have hwords : (encWords hash e).length = (8 * e.length + e.length / 4) / 11 := by
    unfold encWords
    rw [bitsToWords_length _ hdvd2, hbits]
  have hlt : ∀ w ∈ encWords hash e, w < 2048 := bitsToWords_mem_lt _ hdvd2
  have hfind : (encWords hash e).find? (fun w => decide (2048 ≤ w)) = none := by
    rw [List.find?_eq_none]
    intro w hw
    simpa using hlt w hw
  have hback : wordsToBits (encWords hash e) =
      bytesToBits e ++ (hash e).take (e.length / 4) :=
    wordsToBits_bitsToWords _ hdvd2
  unfold mnemonicDecode
  simp only [hfind]
  rw [hback, hwords, hWL, List.take_left' (bytesToBits_length e),
    List.drop_left' (bytesToBits_length e), bitsToBytes_eq e hb]
  rw [if_pos hWC, if_pos rfl]

/-- Inversion of a successful decode. -/
theorem mnemonicDecode_ok_inv {hash : List Nat → List Bool} {ws e : List Nat}
    (h : mnemonicDecode hash ws = .ok e) :
    validWordCount ws.length = true ∧ (∀ w ∈ ws, w < 2048) ∧
      e = bitsToBytes ((wordsToBits ws).take (8 * (ws.length * 4 / 3))) ∧
      (hash e).take (ws.length * 4 / 3 / 4) =
        (wordsToBits ws).drop (8 * (ws.length * 4 / 3)) := by
  unfold mnemonicDecode at h
  cases hfind : ws.find? (fun w => decide (2048 ≤ w)) with
  | some w => rw [hfind] at h; exact absurd h (by simp)
  | none =>
    rw [hfind] at h
    have hlt : ∀ w ∈ ws, w < 2048 := by
      intro w hw
      have := List.find?_eq_none.mp hfind w hw
      simpa using this
    by_cases hWC : validWordCount ws.length = true
    · rw [if_pos hWC] at h
      by_cases hck : (hash (bitsToBytes ((wordsToBits ws).take (8 * (ws.length * 4 / 3))))).take
            (ws.length * 4 / 3 / 4) =
          (wordsToBits ws).drop (8 * (ws.length * 4 / 3))
      · rw [if_pos hck] at h
        have he : e = bitsToBytes ((wordsToBits ws).take (8 * (ws.length * 4 / 3))) := by
          have := h
          injection this with h2
          exact h2.symm
        refine ⟨hWC, hlt, he, ?_⟩
        rw [he]
        exact hck
      · rw [if_neg hck] at h
        exact absurd h (by simp)
    · rw [if_neg hWC] at h
      exact absurd h (by simp)

/-- Facts about the entropy produced by a successful decode. -/
theorem mnemonicDecode_ok_facts {hash : List Nat → List Bool} {ws e : List Nat}
    (h : mnemonicDecode hash ws = .ok e) :
    e.length = ws.length * 4 / 3 ∧ validEntropyLen e.length = true ∧
      ∀ b ∈ e, b < 256 := by
  obtain ⟨hWC, _, he, _⟩ := mnemonicDecode_ok_inv h
  obtain ⟨hvalid, hle, _⟩ := wordCount_facts hWC
  have hbits : (wordsToBits ws).length = 11 * ws.length := wordsToBits_length ws
  have htake : ((wordsToBits ws).take (8 * (ws.length * 4 / 3))).length =
      8 * (ws.length * 4 / 3) := by
    rw [List.length_take, hbits]
    omega
  have h8 : 8 ∣ ((wordsToBits ws).take (8 * (ws.length * 4 / 3))).length := by
    rw [htake]
    exact Dvd.intro _ rfl
  have hlen : e.length = ws.length * 4 / 3 := by
    rw [he, bitsToBytes_length _ h8, htake]
    omega
  refine ⟨hlen, by rw [hlen]; exact hvalid, ?_⟩
  rw [he]
  exact bitsToBytes_mem_lt _ h8

/-- Round trip: a phrase that decodes successfully is re-encoded verbatim. -/
theorem mnemonicEncode_decode {hash : List Nat → List Bool} {ws e : List Nat}
    (h : mnemonicDecode hash ws = .ok e) :
    mnemonicEncode hash e = .ok ws := by
  obtain ⟨hWC, hlt, he, hck⟩ := mnemonicDecode_ok_inv h
  obtain ⟨hlen, hvalid, _⟩ := mnemonicDecode_ok_facts h
  have hbits : (wordsToBits ws).length = 11 * ws.length := wordsToBits_length ws
  obtain ⟨_, hle, _⟩ := wordCount_facts hWC
  have htake : ((wordsToBits ws).take (8 * (ws.length * 4 / 3))).length =
      8 * (ws.length * 4 / 3) := by
    rw [List.length_take, hbits]
    omega
  have h8 : 8 ∣ ((wordsToBits ws).take (8 * (ws.length * 4 / 3))).length := by
    rw [htake]
    exact Dvd.intro _ rfl
  have hfront : bytesToBits e = (wordsToBits ws).take (8 * (ws.length * 4 / 3)) := by
    rw [he]
    exact bytesToBits_bitsToBytes _ h8
  unfold mnemonicEncode
  rw [if_pos hvalid]
  congr 1
  unfold encWords
  rw [hfront, hlen, hck, List.take_append_drop]
  exact bitsToWords_eq ws hlt

/-! ## Shamir sharing engine (ShamirSplitter / ShamirRecoverer)

Modelled from the spec: the `sharks` crate's dealer and recoverer. -/

/-- A Shamir share: a nonzero field index `x` and a value vector `y`. -/
structure Share where
  x : GF256
  y : List GF256
  deriving DecidableEq

/-- Horner evaluation of the polynomial with coefficient list `cs`
(constant coefficient first). -/
def evalPoly (cs : List GF256) (x : GF256) : GF256 :=
  cs.foldr (fun c acc => acc * x + c) 0

theorem evalPoly_nil (x : GF256) : evalPoly [] x = 0 := rfl

theorem evalPoly_cons (c : GF256) (cs : List GF256) (x : GF256) :
    evalPoly (c :: cs) x = evalPoly cs x * x + c := rfl

theorem evalPoly_zero (c : GF256) (cs : List GF256) : evalPoly (c :: cs) 0 = c := by
  rw [evalPoly_cons, mul_zero, zero_add]

/-- Modelled from the spec: `ShamirSplitter.deal`.  Per byte position `i`
the polynomial is `secret[i] + c1·x + … + c_{T-1}·x^{T-1}`, whose tail
coefficients are the first `T − 1` elements of the caller-supplied random
coefficient stream `coeffs i`; the share of index `j` (for `j = 1..N`)
carries the evaluation of every byte polynomial at the field point `j`. -/
def deal (secret : List Nat) (threshold n : Nat) (coeffs : Nat → List GF256) :
    List Share :=
  (List.range n).map (fun j =>
    { x := mkGF (j + 1)
      y := secret.enum.map (fun p =>
        evalPoly (mkGF p.2 :: (coeffs p.1).take (threshold - 1)) (mkGF (j + 1))) })

/-- Lagrange interpolation at `x = 0` of the shares, at byte position `i`:
`Σ_j y_j[i] · Π_{x_k ≠ x_j} x_k / (x_k − x_j)`. -/
def lagrangeAt0 (shares : List Share) (i : Nat) : GF256 :=
  (shares.map (fun sj =>
    sj.y.getD i 0 *
      ((shares.filter (fun sk => decide (sk.x ≠ sj.x))).map
        (fun sk => sk.x / (sk.x - sj.x))).prod)).sum

/-- Modelled from the spec: the recoverer's per-byte interpolation, over
the value-vector length of the first share. -/
def interpolate (shares : List Share) : List GF256 :=
  match shares with
  | [] => []
  | s0 :: _ => (List.range s0.y.length).map (fun i => lagrangeAt0 shares i)

inductive RecoverError
  | InconsistentShares
  | NotEnoughShares
  deriving DecidableEq

/-- Modelled from the spec: `ShamirRecoverer.recover`.  Requires a nonempty
share set whose value vectors have equal length and whose indices are
pairwise distinct (otherwise `InconsistentShares`), and at least
`threshold` shares; interpolates each byte at `x = 0`. -/
def sharksRecover (threshold : Nat) (shares : List Share) :
    Except RecoverError (List GF256) :=
  match shares with
  | [] => .error .NotEnoughShares
  | s0 :: rest =>
    if rest.all (fun s => s.y.length == s0.y.length) then
      if (List.map Share.x (s0 :: rest)).Nodup then
        if (s0 :: rest).length < threshold then .error .NotEnoughShares
        else .ok (interpolate (s0 :: rest))
      else .error .InconsistentShares
    else .error .InconsistentShares

theorem deal_length (secret : List Nat) (threshold n : Nat) (coeffs : Nat → List GF256) :
    (deal secret threshold n coeffs).length = n := by
  unfold deal
  rw [List.length_map, List.length_range]

theorem deal_get (secret : List Nat) (threshold n : Nat) (coeffs : Nat → List GF256)
    (k : Fin (deal secret threshold n coeffs).length) :
    (deal secret threshold n coeffs).get k =
      { x := mkGF (k.val + 1)
        y := secret.enum.map (fun p =>
          evalPoly (mkGF p.2 :: (coeffs p.1).take (threshold - 1)) (mkGF (k.val + 1))) } := by
  unfold deal at k ⊢
  rw [List.get_map]
  congr 1 <;> rw [List.get_range]

theorem deal_y_length (secret : List Nat) (threshold n : Nat) (coeffs : Nat → List GF256) :
    ∀ sh ∈ deal secret threshold n coeffs, sh.y.length = secret.length := by
  intro sh hsh
  unfold deal at hsh
  rcases List.mem_map.mp hsh with ⟨j, _, rfl⟩
  simp [List.length_map, List.enum_length]

/-- The Mathlib polynomial denoted by a coefficient list (constant
coefficient first); proof-level bridge to Lagrange interpolation. -/
noncomputable def polyOfList (cs : List GF256) : Polynomial GF256 :=
  cs.foldr (fun c p => Polynomial.C c + Polynomial.X * p) 0

theorem polyOfList_eval (cs : List GF256) (x : GF256) :
    (polyOfList cs).eval x = evalPoly cs x := by
  induction cs with
  | nil => simp [polyOfList, evalPoly]
  | cons c cs ih =>
    show (Polynomial.C c + Polynomial.X * polyOfList cs).eval x = _
    rw [evalPoly_cons, Polynomial.eval_add, Polynomial.eval_C, Polynomial.eval_mul,
      Polynomial.eval_X, ih]
    ring

theorem polyOfList_degree_lt (cs : List GF256) :
    (polyOfList cs).degree < (cs.length : Nat) := by
  induction cs with
  | nil =>
    show (0 : Polynomial GF256).degree < _
    rw [Polynomial.degree_zero]
    exact WithBot.bot_lt_coe _
  | cons c cs ih =>
    show (Polynomial.C c + Polynomial.X * polyOfList cs).degree < _
    apply lt_of_le_of_lt (Polynomial.degree_add_le _ _)
    rw [max_lt_iff]
    constructor
    · apply lt_of_le_of_lt Polynomial.degree_C_le
      exact_mod_cast Nat.succ_pos cs.length
    · apply lt_of_le_of_lt (Polynomial.degree_mul_le _ _)
      apply lt_of_le_of_lt (add_le_add_right Polynomial.degree_X_le _)
      have hcast : ((cs.length + 1 : Nat) : WithBot Nat) = 1 + (cs.length : Nat) := by
        push_cast
        ring
      rw [List.length_cons, hcast]
      exact WithBot.add_lt_add_left (by simp) ih

/-- Sum of a mapped list as a sum over its index type. -/
theorem list_map_sum {α : Type} (l : List α) (g : α → GF256) :
    (l.map g).sum = ∑ k : Fin l.length, g (l.get k) := by
  conv_lhs => rw [← List.ofFn_get l]
  rw [List.map_ofFn, List.sum_ofFn]
  rfl

/-- Product over a filtered list as a product over index sets. -/
theorem list_filter_map_prod {α : Type} (l : List α) (p : α → Bool) (g : α → GF256) :
    ((l.filter p).map g).prod =
      ∏ k ∈ Finset.univ.filter (fun k : Fin l.length => p (l.get k) = true),
        g (l.get k) := by
  induction l with
  | nil => simp
  | cons a t ih =>
    have step1 : ((List.filter p (a :: t)).map g).prod =
        (if p a = true then g a else 1) * ((t.filter p).map g).prod := by
      cases hpa : p a
      · rw [List.filter_cons_of_neg (by simp [hpa])]
        simp
      · rw [List.filter_cons_of_pos (by simp [hpa])]
        simp [List.map_cons, List.prod_cons]
    rw [step1, ih, Finset.prod_filter]
    calc (if p a = true then g a else 1) *
          ∏ k : Fin t.length, (if p (t.get k) = true then g (t.get k) else 1) =
        ∏ k : Fin (t.length + 1),
          (if p ((a :: t).get k) = true then g ((a :: t).get k) else 1) :=
          (Fin.prod_univ_succ (fun k : Fin (t.length + 1) =>
            if p ((a :: t).get k) = true then g ((a :: t).get k) else 1)).symm
      _ = ∏ k ∈ Finset.univ.filter (fun k : Fin (a :: t).length =>
            p ((a :: t).get k) = true), g ((a :: t).get k) :=
          (Finset.prod_filter _ _).symm

/-- The interpolation formula of the recoverer evaluates the constant
coefficient: interpolating at `x = 0` over any family of shares that all
lie on the polynomial `cs` (with distinct indices, at least as many shares
as coefficients) returns `cs` evaluated at `0`. -/
theorem lagrangeAt0_eq (cs : List GF256) (shares : List Share) (i : Nat)
    (hx : (shares.map Share.x).Nodup)
    (hy : ∀ sh ∈ shares, sh.y.getD i 0 = evalPoly cs sh.x)
    (hlen : cs.length ≤ shares.length) :
    lagrangeAt0 shares i = evalPoly cs 0 := by
  classical
  have hvinj : Function.Injective (fun k : Fin shares.length => (shares.get k).x) := by
    intro j k hjk
    have hmaplen : (shares.map Share.x).length = shares.length := List.length_map _ _
    have hget := List.nodup_iff_injective_get.mp hx
    have hj : (shares.map Share.x).get (Fin.cast hmaplen.symm j) = (shares.get j).x :=
      List.get_map Share.x
    have hk : (shares.map Share.x).get (Fin.cast hmaplen.symm k) = (shares.get k).x :=
      List.get_map Share.x
    have heq := hget (hj.trans (Eq.trans hjk hk.symm))
    exact Fin.ext (by simpa using congrArg Fin.val heq)
  have hdeg : (polyOfList cs).degree <
      (Finset.univ : Finset (Fin shares.length)).card := by
    rw [Finset.card_univ, Fintype.card_fin]
    exact lt_of_lt_of_le (polyOfList_degree_lt cs) (by exact_mod_cast hlen)
  have hinterp : polyOfList cs =
      Lagrange.interpolate Finset.univ (fun k : Fin shares.length => (shares.get k).x)
        (fun k => (polyOfList cs).eval ((shares.get k).x)) :=
    Lagrange.eq_interpolate hvinj.injOn hdeg
  have heval : evalPoly cs 0 = ∑ k : Fin shares.length,
      evalPoly cs (shares.get k).x *
        (Lagrange.basis Finset.univ (fun k : Fin shares.length => (shares.get k).x) k).eval 0 := by
    conv_lhs => rw [← polyOfList_eval, hinterp]
    rw [Lagrange.interpolate_apply, Polynomial.eval_finset_sum]
    apply Finset.sum_congr rfl
    intro k _
    simp only [Polynomial.eval_mul, Polynomial.eval_C, polyOfList_eval]
  rw [heval]
  unfold lagrangeAt0
  rw [list_map_sum]
  apply Finset.sum_congr rfl
  intro k _
  have hfirst : (shares.get k).y.getD i 0 = evalPoly cs (shares.get k).x :=
    hy _ (List.get_mem shares k.val k.isLt)
  rw [hfirst]
  congr 1
  rw [list_filter_map_prod]
  have hset : Finset.univ.filter (fun j : Fin shares.length =>
      (decide ((shares.get j).x ≠ (shares.get k).x)) = true) = Finset.univ.erase k := by
    ext j
    simp only [Finset.mem_filter, Finset.mem_univ, true_and, Finset.mem_erase,
      decide_eq_true_eq, and_true]
    constructor
    · intro hne hj
      exact hne (by rw [hj])
    · intro hne hx2
      exact hne (hvinj hx2)
  rw [hset]
  unfold Lagrange.basis
  rw [Polynomial.eval_prod]
  apply Finset.prod_congr rfl
  intro j hj
  rw [Lagrange.basisDivisor, Polynomial.eval_mul, Polynomial.eval_C, Polynomial.eval_sub,
    Polynomial.eval_X, Polynomial.eval_C, zero_sub, GF256.neg_eq, div_eq_mul_inv,
    GF256.sub_eq_add, GF256.sub_eq_add,
    add_comm ((shares.get j).x) ((shares.get k).x)]
  exact mul_comm _ _

/-! ## The command layer (`src/main.rs`) -/

/-- A shard as held by the CLI: a `u8` index plus a mnemonic (the word
index sequence standing for a `bip39::Mnemonic`). -/
structure MnemonicShard where
  index : Nat
  words : List Nat
  deriving DecidableEq

inductive SplitError
  | InvalidThreshold
  | InvalidSeedPhrase (e : CodecError)
  | ShardEncode (idx : Nat) (e : CodecError)
  deriving DecidableEq

/-- `split_command` from `src/main.rs`: rejects `threshold > num_shards`
first — before decoding the phrase or any sharing work; then decodes the
seed phrase, deals the shares, and re-encodes each share value vector as a
mnemonic. -/
def split_command (hash : List Nat → List Bool) (seedPhrase : List Nat)
    (numShards threshold : Nat) (coeffs : Nat → List GF256) :
    Except SplitError (List MnemonicShard) :=
  if threshold > numShards then .error .InvalidThreshold
  else
    match mnemonicDecode hash seedPhrase with
    | .error e => .error (.InvalidSeedPhrase e)
    | .ok entropy =>
      (deal entropy threshold numShards coeffs).mapM (fun sh =>
        match mnemonicEncode hash (sh.y.map GF256.val) with
        | .error e => .error (.ShardEncode sh.x.val e)
        | .ok ws => .ok { index := sh.x.val, words := ws })

inductive RecoverCmdError
  | InvalidShard (idx : Nat) (e : CodecError)
  | ShareTooShort
  | RecoverFailed (e : RecoverError)
  | EncodeRecovered (e : CodecError)
  deriving DecidableEq

/-- The per-shard step of `recover_command`: re-parse the shard mnemonic,
prepend the index byte and convert to a sharks `Share` (the conversion
requires at least two bytes, i.e. nonempty entropy). -/
def shardToShare (hash : List Nat → List Bool) (sh : MnemonicShard) :
    Except RecoverCmdError Share :=
  match mnemonicDecode hash sh.words with
  | .error e => .error (.InvalidShard sh.index e)
  | .ok entropy =>
    if entropy.isEmpty then .error .ShareTooShort
    else .ok { x := mkGF sh.index, y := entropy.map mkGF }

/-- `recover_command` from `src/main.rs`: decode every shard into a share,
recover with the threshold set to the number of supplied shares (the
`as u8` cast wraps modulo 256), and encode the recovered secret. -/
def recover_command (hash : List Nat → List Bool) (shards : List MnemonicShard) :
    Except RecoverCmdError (List Nat) :=
  match shards.mapM (shardToShare hash) with
  | .error e => .error e
  | .ok shares =>
    match sharksRecover (shards.length % 256) shares with
    | .error e => .error (.RecoverFailed e)
    | .ok secret =>
      match mnemonicEncode hash (secret.map GF256.val) with
      | .error e => .error (.EncodeRecovered e)
      | .ok ws => .ok ws

inductive ParseError
  | InvalidFormat
  | InvalidIndex
  | InvalidMnemonic (e : CodecError)
  deriving DecidableEq

/-- Rust `str::split_whitespace`: split at whitespace characters and drop
empty tokens (accumulator-passing, structural recursion). -/
def splitWsAux : List Char → List Char → List (List Char)
  | [], acc => if acc.isEmpty then [] else [acc.reverse]
  | c :: rest, acc =>
    if c.isWhitespace then
      if acc.isEmpty then splitWsAux rest []
      else acc.reverse :: splitWsAux rest []
    else splitWsAux rest (c :: acc)

def splitWs (line : List Char) : List (List Char) := splitWsAux line []

/-- Rust `u8::from_str` as used by `parts[0].parse::<u8>()`: an optional
leading `+` sign, then one or more ASCII digits, with value at most 255
(larger values overflow and fail). -/
def parseU8 (token : List Char) : Option Nat :=
  let ds := match token with
    | '+' :: rest => rest
    | _ => token
  if ds.isEmpty then none
  else if ds.all Char.isDigit then
    if ds.foldl (fun a c => 10 * a + (c.toNat - 48)) 0 ≤ 255 then
      some (ds.foldl (fun a c => 10 * a + (c.toNat - 48)) 0)
    else none
  else none

/-- One line of `parse_recover_args` from `src/main.rs`: split the line on
whitespace; fewer than two tokens is a malformed shard; the leading token
must parse as a `u8`; the remaining tokens are joined and handed to the
mnemonic parser.  The abstract `lookup` maps a word to its wordlist index;
a word that is not in the wordlist is mapped outside the index range and
is therefore rejected by the codec as unknown. -/
def shardFromLine (hash : List Nat → List Bool) (lookup : List Char → Option Nat)
    (line : List Char) : Except ParseError MnemonicShard :=
  if (splitWs line).length < 2 then .error .InvalidFormat
  else
    match parseU8 ((splitWs line).headD []) with
    | none => .error .InvalidIndex
    | some idx =>
      match mnemonicDecode hash
          (((splitWs line).drop 1).map (fun t => (lookup t).getD 2048)) with
      | .error e => .error (.InvalidMnemonic e)
      | .ok _ =>
        .ok { index := idx
              words := ((splitWs line).drop 1).map (fun t => (lookup t).getD 2048) }

/-- `parse_recover_args` over the list of input lines. -/
def parse_recover_args (hash : List Nat → List Bool) (lookup : List Char → Option Nat)
    (lines : List (List Char)) : Except ParseError (List MnemonicShard) :=
  lines.mapM (shardFromLine hash lookup)

/-- `mapM` into `Except` succeeds pointwise. -/
theorem mapM_ok_of_forall {α β ε : Type} (f : α → Except ε β) (g : α → β) :
    ∀ xs : List α, (∀ x ∈ xs, f x = .ok (g x)) → xs.mapM f = .ok (xs.map g) := by
  intro xs
  induction xs with
  | nil => intro _; rfl
  | cons a t ih =>
    intro h
    rw [List.mapM_cons, h a (by simp), ih (fun x hx => h x (by simp [hx]))]
    rfl

theorem split_command_ok (hash : List Nat → List Bool) (phrase : List Nat)
    (numShards threshold : Nat) (coeffs : Nat → List GF256) (entropy : List Nat)
    (hd : mnemonicDecode hash phrase = .ok entropy) (hTN : threshold ≤ numShards) :
    split_command hash phrase numShards threshold coeffs =
      .ok ((deal entropy threshold numShards coeffs).map (fun sh =>
        { index := sh.x.val, words := encWords hash (sh.y.map GF256.val) })) := by
  unfold split_command
  rw [if_neg (by omega)]
  simp only [hd]
  apply mapM_ok_of_forall
  intro sh hsh
  have hylen : sh.y.length = entropy.length :=
    deal_y_length entropy threshold numShards coeffs sh hsh
  have hvalid : validEntropyLen (sh.y.map GF256.val).length = true := by
    rw [List.length_map, hylen]
    exact (mnemonicDecode_ok_facts hd).2.1
  have henc : mnemonicEncode hash (sh.y.map GF256.val) =
      .ok (encWords hash (sh.y.map GF256.val)) := by
    unfold mnemonicEncode
    rw [if_pos hvalid]
  simp only [henc]

theorem interpolate_cons (s0 : Share) (rest : List Share) :
    interpolate (s0 :: rest) =
      (List.range s0.y.length).map (fun i => lagrangeAt0 (s0 :: rest) i) := rfl

theorem sharksRecover_nil (threshold : Nat) :
    sharksRecover threshold [] = .error .NotEnoughShares := rfl

theorem sharksRecover_cons (threshold : Nat) (s0 : Share) (rest : List Share) :
    sharksRecover threshold (s0 :: rest) =
      if rest.all (fun s => s.y.length == s0.y.length) then
        if (List.map Share.x (s0 :: rest)).Nodup then
          if (s0 :: rest).length < threshold then .error .NotEnoughShares
          else .ok (interpolate (s0 :: rest))
        else .error .InconsistentShares
      else .error .InconsistentShares := rfl

theorem sharksRecover_ok (threshold : Nat) (s0 : Share) (rest : List Share)
    (hlen : ∀ s ∈ rest, s.y.length = s0.y.length)
    (hnd : (List.map Share.x (s0 :: rest)).Nodup)
    (hcount : ¬ (s0 :: rest).length < threshold) :
    sharksRecover threshold (s0 :: rest) = .ok (interpolate (s0 :: rest)) := by
  rw [sharksRecover_cons]
  rw [if_pos, if_pos hnd, if_neg hcount]
  rw [List.all_eq_true]
  intro s hs
  simpa using hlen s hs

theorem deal_x_nodup (secret : List Nat) (T n : Nat) (coeffs : Nat → List GF256)
    (hn : n ≤ 255) : ((deal secret T n coeffs).map Share.x).Nodup := by
  unfold deal
  rw [List.map_map]
  apply List.Nodup.map_on ?_ (List.nodup_range n)
  intro x hx y hy hxy
  have hx2 : x < n := List.mem_range.mp hx
  have hy2 : y < n := List.mem_range.mp hy
  have hval := congrArg GF256.val hxy
  simp only [Function.comp_apply, val_mkGF] at hval
  omega

theorem deal_mem_y_getD (secret : List Nat) (T n : Nat) (coeffs : Nat → List GF256)
    (sh : Share) (hsh : sh ∈ deal secret T n coeffs) (i : Nat) (hi : i < secret.length) :
    sh.y.getD i 0 = evalPoly (mkGF (secret.getD i 0) :: (coeffs i).take (T - 1)) sh.x := by
  unfold deal at hsh
  rcases List.mem_map.mp hsh with ⟨j, _, rfl⟩
  have hi2 : i < (secret.enum.map (fun p =>
      evalPoly (mkGF p.2 :: (coeffs p.1).take (T - 1)) (mkGF (j + 1)))).length := by
    simp [hi]
  rw [List.getD_eq_getElem?_getD, List.getElem?_eq_getElem hi2, Option.getD_some,
    List.getElem_map]
  simp only [List.enum_eq_enumFrom, List.getElem_enumFrom, Nat.zero_add]
  have hgetD : secret.getD i 0 = secret.get ⟨i, hi⟩ := by
    rw [List.getD_eq_getElem?_getD, List.getElem?_eq_getElem hi, Option.getD_some,
      List.get_eq_getElem]
  rw [hgetD]
  rfl

theorem shardToShare_encWords (hash : List Nat → List Bool)
    (hh : ∀ e, 8 ≤ (hash e).length) (sh : Share) (idx : Nat)
    (hval : validEntropyLen sh.y.length = true) :
    shardToShare hash ⟨idx, encWords hash (sh.y.map GF256.val)⟩ =
      .ok ⟨mkGF idx, sh.y⟩ := by
  unfold shardToShare
  have hdec : mnemonicDecode hash (encWords hash (sh.y.map GF256.val)) =
      .ok (sh.y.map GF256.val) :=
    mnemonicDecode_encWords hash _ (by rw [List.length_map]; exact hval)
      (by intro b hb
          rcases List.mem_map.mp hb with ⟨g, _, rfl⟩
          exact g.isLt)
      (hh _)
  simp only [hdec]
  have hne : (sh.y.map GF256.val).isEmpty = false := by
    have hpos : 0 < sh.y.length := by
      rcases validEntropyLen_cases hval with h | h | h | h | h <;> rw [h] <;> omega
    cases hemp : sh.y.map GF256.val with
    | nil =>
      have hlen0 := congrArg List.length hemp
      rw [List.length_map, List.length_nil] at hlen0
      omega
    | cons a t => rfl
  rw [if_neg (by simp [hne])]
  have hback : (sh.y.map GF256.val).map mkGF = sh.y := by
    rw [List.map_map]
    calc sh.y.map (mkGF ∘ GF256.val) = sh.y.map id :=
          List.map_congr_left (fun a _ => mkGF_val a)
      _ = sh.y := List.map_id sh.y
  rw [hback]

/-- `mapM` over a mapped list, when the function inverts the map. -/
theorem mapM_map_ok {α β : Type} {ε : Type} (f : β → Except ε α) (h : α → β) :
    ∀ xs : List α, (∀ x ∈ xs, f (h x) = .ok x) → (xs.map h).mapM f = .ok xs := by
  intro xs
  induction xs with
  | nil => intro _; rfl
  | cons a t ih =>
    intro hh
    rw [List.map_cons, List.mapM_cons, hh a (by simp), ih (fun x hx => hh x (by simp [hx]))]
    rfl

/-- Recovering from any large-enough sub-collection of the shards produced
by a split returns the original phrase. -/
theorem recover_deal_sublist (hash : List Nat → List Bool)
    (hh : ∀ e, 8 ≤ (hash e).length)
    (phrase entropy : List Nat) (hd : mnemonicDecode hash phrase = .ok entropy)
    (numShards threshold : Nat) (coeffs : Nat → List GF256)
    (hT2 : 2 ≤ threshold) (hN : numShards ≤ 255)
    (sub : List MnemonicShard)
    (hsub : sub.Sublist ((deal entropy threshold numShards coeffs).map (fun sh =>
      { index := sh.x.val, words := encWords hash (sh.y.map GF256.val) })))
    (hcount : threshold ≤ sub.length) :
    recover_command hash sub = .ok phrase := by
  obtain ⟨subD, hsubD, rfl⟩ := List.sublist_map_iff.mp hsub
  obtain ⟨hlenE, hvalidE, hbE⟩ := mnemonicDecode_ok_facts hd
  have hmemD : ∀ sh ∈ subD, sh ∈ deal entropy threshold numShards coeffs :=
    fun sh h => hsubD.subset h
  have hylen : ∀ sh ∈ subD, sh.y.length = entropy.length :=
    fun sh h => deal_y_length entropy threshold numShards coeffs sh (hmemD sh h)
  have hmapM : (subD.map (fun sh => MnemonicShard.mk sh.x.val
      (encWords hash (sh.y.map GF256.val)))).mapM
        (shardToShare hash) = .ok subD := by
    apply mapM_map_ok
    intro sh hsh
    have hx := shardToShare_encWords hash hh sh sh.x.val
      (by rw [hylen sh hsh]; exact hvalidE)
    rw [hx, mkGF_val]
  have hsubLen : subD.length ≤ numShards := by
    have h1 := hsubD.length_le
    rw [deal_length] at h1
    exact h1
  rw [List.length_map] at hcount
  have hmod : subD.length % 256 = subD.length := Nat.mod_eq_of_lt (by omega)
  have hnd : (subD.map Share.x).Nodup :=
    (hsubD.map Share.x).nodup (deal_x_nodup entropy threshold numShards coeffs hN)
  cases subD with
  | nil =>
    exfalso
    simp at hcount
    omega
  | cons s0 restD =>
    unfold recover_command
    simp only [hmapM, List.length_map, hmod]
    have hrec : sharksRecover (s0 :: restD).length (s0 :: restD) =
        .ok (interpolate (s0 :: restD)) := by
      apply sharksRecover_ok
      · intro s hs
        rw [hylen s (by simp [hs]), hylen s0 (by simp)]
      · exact hnd
      · omega
    simp only [hrec]
    have hinterp : interpolate (s0 :: restD) = entropy.map mkGF := by
      rw [interpolate_cons]
      have hs0len : s0.y.length = entropy.length := hylen s0 (by simp)
      rw [hs0len]
      apply List.ext_getElem
      · rw [List.length_map, List.length_range, List.length_map]
      intro i h1 h2
      rw [List.getElem_map, List.getElem_range, List.getElem_map]
      have hi : i < entropy.length := by
        rw [List.length_map, List.length_range] at h1
        exact h1
      rw [lagrangeAt0_eq (mkGF (entropy.getD i 0) :: (coeffs i).take (threshold - 1))
        (s0 :: restD) i hnd
        (fun sh hsh => deal_mem_y_getD entropy threshold numShards coeffs sh
          (hmemD sh hsh) i hi)
        (by rw [List.length_cons, List.length_take]
            simp only [List.length_cons] at hcount ⊢
            omega)]
      rw [evalPoly_zero]
      congr 1
      rw [List.getD_eq_getElem?_getD, List.getElem?_eq_getElem hi, Option.getD_some]
    rw [hinterp]
    have hback : (entropy.map mkGF).map GF256.val = entropy := by
      rw [List.map_map]
      calc entropy.map (GF256.val ∘ mkGF) = entropy.map id := by
            apply List.map_congr_left
            intro b hb
            simp only [Function.comp_apply, val_mkGF, id]
            exact Nat.mod_eq_of_lt (hbE b hb)
        _ = entropy := List.map_id entropy
    rw [hback]
    have henc : mnemonicEncode hash entropy = .ok phrase := mnemonicEncode_decode hd
    simp only [henc]

theorem encWords_length (hash : List Nat → List Bool) (e : List Nat)
    (he : validEntropyLen e.length = true) (hh : 8 ≤ (hash e).length) :
    (encWords hash e).length = (8 * e.length + e.length / 4) / 11 := by
  obtain ⟨hL4, hdvd, _, _⟩ := entropyLen_facts he
  have htake : ((hash e).take (e.length / 4)).length = e.length / 4 := by
    rw [List.length_take]
    omega
  have hbits : (bytesToBits e ++ (hash e).take (e.length / 4)).length =
      8 * e.length + e.length / 4 := by
    rw [List.length_append, bytesToBits_length, htake]
  have hdvd2 : 11 ∣ (bytesToBits e ++ (hash e).take (e.length / 4)).length := by
    rw [hbits]
    exact hdvd
  unfold encWords
  rw [bitsToWords_length _ hdvd2, hbits]

theorem wordCount_of_entropyLen {W1 W2 : Nat} (h1 : validWordCount W1 = true)
    (h2 : validWordCount W2 = true) (h : W1 * 4 / 3 = W2 * 4 / 3) : W1 = W2 := by
  rcases validWordCount_cases h1 with rfl | rfl | rfl | rfl | rfl <;>
    rcases validWordCount_cases h2 with rfl | rfl | rfl | rfl | rfl <;> omega

theorem parseU8_le {token : List Char} {n : Nat} (h : parseU8 token = some n) : n ≤ 255 := by
  unfold parseU8 at h
  dsimp only at h
  split_ifs at h with h1 h2 h3
  all_goals cases h
  exact h3

theorem lagrangeAt0_singleton (s : Share) (i : Nat) :
    lagrangeAt0 [s] i = s.y.getD i 0 := by
  simp [lagrangeAt0]

theorem interpolate_singleton (s : Share) : interpolate [s] = s.y := by
  rw [interpolate_cons]
  apply List.ext_getElem
  · rw [List.length_map, List.length_range]
  intro i h1 h2
  rw [List.getElem_map, List.getElem_range, lagrangeAt0_singleton]
  rw [List.getD_eq_getElem?_getD, List.getElem?_eq_getElem h2, Option.getD_some]

/-- Recovery on any nonempty list of well-formed shards with distinct
index bytes and a common word count succeeds and produces the mnemonic of
the interpolated secret. -/
theorem recover_command_wellformed (hash : List Nat → List Bool)
    (hh : ∀ e, 8 ≤ (hash e).length)
    (shards : List MnemonicShard) (es : MnemonicShard → List Nat)
    (hdec : ∀ sh ∈ shards, mnemonicDecode hash sh.words = .ok (es sh))
    (hne : shards ≠ [])
    (hnd : (shards.map (fun sh => sh.index % 256)).Nodup)
    (W : Nat) (hW : ∀ sh ∈ shards, sh.words.length = W) :
    recover_command hash shards =
      .ok (encWords hash
        ((interpolate (shards.map (fun sh =>
          Share.mk (mkGF sh.index) ((es sh).map mkGF)))).map GF256.val)) := by
  have hlenes : ∀ sh ∈ shards, (es sh).length = W * 4 / 3 := by
    intro sh hsh
    have := (mnemonicDecode_ok_facts (hdec sh hsh)).1
    rw [hW sh hsh] at this
    exact this
  have hvalides : ∀ sh ∈ shards, validEntropyLen (es sh).length = true := by
    intro sh hsh
    exact (mnemonicDecode_ok_facts (hdec sh hsh)).2.1
  have hmapM : shards.mapM (shardToShare hash) =
      .ok (shards.map (fun sh => Share.mk (mkGF sh.index) ((es sh).map mkGF))) := by
    apply mapM_ok_of_forall
    intro sh hsh
    unfold shardToShare
    simp only [hdec sh hsh]
    rw [if_neg]
    intro hemp
    have h0 : (es sh).length = 0 := by
      cases h : es sh with
      | nil => rfl
      | cons a t =>
        rw [h] at hemp
        simp at hemp
    rcases validEntropyLen_cases (hvalides sh hsh) with h | h | h | h | h <;> omega
  unfold recover_command
  simp only [hmapM]
  cases shards with
  | nil => exact absurd rfl hne
  | cons m0 restM =>
    rw [List.map_cons]
    have hrec : sharksRecover ((m0 :: restM).length % 256)
        (Share.mk (mkGF m0.index) ((es m0).map mkGF) ::
          restM.map (fun sh => Share.mk (mkGF sh.index) ((es sh).map mkGF))) =
        .ok (interpolate (Share.mk (mkGF m0.index) ((es m0).map mkGF) ::
          restM.map (fun sh => Share.mk (mkGF sh.index) ((es sh).map mkGF)))) := by
      apply sharksRecover_ok
      · intro s hs
        rcases List.mem_map.mp hs with ⟨sh, hsh, rfl⟩
        show ((es sh).map mkGF).length = ((es m0).map mkGF).length
        rw [List.length_map, List.length_map, hlenes sh (by simp [hsh]),
          hlenes m0 (by simp)]
      · have hndx : (((m0 :: restM).map (fun sh =>
            Share.mk (mkGF sh.index) ((es sh).map mkGF))).map Share.x).Nodup := by
          rw [List.map_map]
          have hfac : ∀ sh ∈ m0 :: restM,
              (Share.x ∘ fun sh => Share.mk (mkGF sh.index) ((es sh).map mkGF)) sh =
                (fun sh => mkGF (sh.index % 256)) sh := by
            intro sh _
            apply GF256.val_inj
            show (mkGF sh.index).val = (mkGF (sh.index % 256)).val
            rw [val_mkGF, val_mkGF]
            omega
          rw [List.map_congr_left hfac]
          rw [show (m0 :: restM).map (fun sh => mkGF (sh.index % 256)) =
              ((m0 :: restM).map (fun sh => sh.index % 256)).map mkGF by
            rw [List.map_map]
            rfl]
          apply List.Nodup.map_on ?_ hnd
          intro a ha b hb hab
          have ha2 : a < 256 := by
            rcases List.mem_map.mp ha with ⟨sh, _, rfl⟩
            omega
          have hb2 : b < 256 := by
            rcases List.mem_map.mp hb with ⟨sh, _, rfl⟩
            omega
          have hv := congrArg GF256.val hab
          rw [val_mkGF, val_mkGF] at hv
          omega
        exact hndx
      · simp only [List.length_cons, List.length_map]
        omega
    simp only [hrec]
    have hsecret : ∀ b ∈ (interpolate (Share.mk (mkGF m0.index) ((es m0).map mkGF) ::
        restM.map (fun sh => Share.mk (mkGF sh.index) ((es sh).map mkGF)))).map GF256.val,
        b < 256 := by
      intro b hb
      rcases List.mem_map.mp hb with ⟨g, _, rfl⟩
      exact g.isLt
    have hseclen : ((interpolate (Share.mk (mkGF m0.index) ((es m0).map mkGF) ::
        restM.map (fun sh => Share.mk (mkGF sh.index) ((es sh).map mkGF)))).map
          GF256.val).length = W * 4 / 3 := by
      rw [List.length_map, interpolate_cons, List.length_map, List.length_range]
      show ((es m0).map mkGF).length = W * 4 / 3
      rw [List.length_map]
      exact hlenes m0 (by simp)
    have hvalid : validEntropyLen ((interpolate (Share.mk (mkGF m0.index)
        ((es m0).map mkGF) :: restM.map (fun sh =>
          Share.mk (mkGF sh.index) ((es sh).map mkGF)))).map GF256.val).length = true := by
      rw [hseclen]
      have hWC : validWordCount W = true := by
        have := (mnemonicDecode_ok_inv (hdec m0 (by simp))).1
        rw [hW m0 (by simp)] at this
        exact this
      exact (wordCount_facts hWC).1
    have henc : mnemonicEncode hash ((interpolate (Share.mk (mkGF m0.index)
        ((es m0).map mkGF) :: restM.map (fun sh =>
          Share.mk (mkGF sh.index) ((es sh).map mkGF)))).map GF256.val) =
        .ok (encWords hash ((interpolate (Share.mk (mkGF m0.index)
          ((es m0).map mkGF) :: restM.map (fun sh =>
            Share.mk (mkGF sh.index) ((es sh).map mkGF)))).map GF256.val)) := by
      unfold mnemonicEncode
      rw [if_pos hvalid]
    simp only [henc]

instance {ε α : Type} [DecidableEq ε] [DecidableEq α] : DecidableEq (Except ε α) :=
  fun a b =>
    match a, b with
    | .error e1, .error e2 =>
      if h : e1 = e2 then .isTrue (congrArg Except.error h)
      else .isFalse (fun hc => h (Except.error.inj hc))
    | .error _, .ok _ => .isFalse (fun hc => Except.noConfusion hc)
    | .ok _, .error _ => .isFalse (fun hc => Except.noConfusion hc)
    | .ok v1, .ok v2 =>
      if h : v1 = v2 then .isTrue (congrArg Except.ok h)
      else .isFalse (fun hc => h (Except.ok.inj hc))

/-- Whether an `Except` value is a success. -/
def exceptOk {ε α : Type} : Except ε α → Bool
  | .ok _ => true
  | .error _ => false

theorem mnemonicEncode_ok_inv {hash : List Nat → List Bool} {e ws : List Nat}
    (h : mnemonicEncode hash e = .ok ws) : encWords hash e = ws := by
  unfold mnemonicEncode at h
  split_ifs at h
  exact Except.ok.inj h

theorem map_mkGF_val (e : List Nat) (hb : ∀ b ∈ e, b < 256) :
    (e.map mkGF).map GF256.val = e := by
  rw [List.map_map]
  calc e.map (GF256.val ∘ mkGF) = e.map id := by
        apply List.map_congr_left
        intro b hbm
        simp only [Function.comp_apply, val_mkGF, id]
        exact Nat.mod_eq_of_lt (hb b hbm)
    _ = e := List.map_id e

/-! ## Concrete instances used by the witnesses -/

/-- A concrete stand-in for the checksum hash: eight zero bits. -/
def hashZ : List Nat → List Bool := fun _ => List.replicate 8 false

/-- The all-zero 12-word phrase (a valid mnemonic under `hashZ`). -/
def phraseZ : List Nat := List.replicate 12 0

/-- The all-zero 16-byte entropy buffer. -/
def entropyZ : List Nat := List.replicate 16 0

/-- A concrete random-coefficient stream. -/
def coeffsZ : Nat → List GF256 := fun _ => [mkGF 7]

/-- The shards produced by splitting `phraseZ` three ways, threshold 2. -/
def shardsZ : List MnemonicShard :=
  match split_command hashZ phraseZ 3 2 coeffsZ with
  | .ok l => l
  | .error _ => []

/-- A concrete wordlist reverse lookup: every token is word 0. -/
def lookupZ : List Char → Option Nat := fun _ => some 0

/-! ## The claims -/

/-- C1: for every seed phrase that decodes to valid entropy and all
thresholds and share counts with `2 ≤ T ≤ N ≤ 255`, recovering from any
subset (sublist) of at least `T` of the shards produced by
`split_command(phrase, N, T)` yields the original seed phrase — so in
particular any two distinct `T`-subsets of the same `N` shards recover to
the identical phrase. -/
theorem C1_split_recover_roundtrip
    (hash : List Nat → List Bool) (hh : ∀ e, 8 ≤ (hash e).length)
    (phrase entropy : List Nat) (hd : mnemonicDecode hash phrase = .ok entropy)
    (threshold numShards : Nat) (coeffs : Nat → List GF256)
    (hT : 2 ≤ threshold) (hTN : threshold ≤ numShards) (hN : numShards ≤ 255)
    (shards : List MnemonicShard)
    (hsplit : split_command hash phrase numShards threshold coeffs = .ok shards)
    (sub : List MnemonicShard) (hsub : sub.Sublist shards)
    (hcount : threshold ≤ sub.length) :
    recover_command hash sub = .ok phrase := by
  have hspl := split_command_ok hash phrase numShards threshold coeffs entropy hd hTN
  rw [hsplit] at hspl
  injection hspl with h2
  rw [h2] at hsub
  exact recover_deal_sublist hash hh phrase entropy hd numShards threshold coeffs
    hT hN sub hsub hcount

set_option maxRecDepth 100000 in
set_option maxHeartbeats 1000000 in
theorem C1_witness :
    mnemonicDecode hashZ phraseZ = .ok entropyZ ∧
      split_command hashZ phraseZ 3 2 coeffsZ = .ok shardsZ ∧
      recover_command hashZ (shardsZ.take 2) = .ok phraseZ :=
  ⟨rfl, rfl,
    C1_split_recover_roundtrip hashZ (fun e => by simp [hashZ]) phraseZ entropyZ rfl
      2 3 coeffsZ (by decide) (by decide) (by decide) shardsZ rfl
      (shardsZ.take 2) (List.take_sublist 2 shardsZ) (by decide)⟩

/-- C2: `split_command` called with a threshold strictly greater than the
shard count fails with the invalid-threshold error.  The theorem holds for
every phrase — including phrases that do not even decode — because the
threshold test is the first thing `split_command` does, before any
decoding, dealing or encoding work. -/
theorem C2_invalid_threshold (hash : List Nat → List Bool) (phrase : List Nat)
    (numShards threshold : Nat) (coeffs : Nat → List GF256)
    (h : numShards < threshold) :
    split_command hash phrase numShards threshold coeffs = .error .InvalidThreshold := by
  unfold split_command
  rw [if_pos (by omega)]

theorem C2_witness :
    split_command hashZ [] 5 6 coeffsZ = .error .InvalidThreshold :=
  C2_invalid_threshold hashZ [] 5 6 coeffsZ (by decide)

/-- C3: for every byte buffer of valid entropy length (16, 20, 24, 28 or
32), the mnemonic codec round trip holds: encoding succeeds, and decoding
the produced mnemonic returns exactly the original buffer. -/
theorem C3_codec_roundtrip (hash : List Nat → List Bool) (e : List Nat)
    (he : validEntropyLen e.length = true) (hb : ∀ b ∈ e, b < 256)
    (hh : 8 ≤ (hash e).length) :
    mnemonicEncode hash e = .ok (encWords hash e) ∧
      mnemonicDecode hash (encWords hash e) = .ok e :=
  ⟨by unfold mnemonicEncode; rw [if_pos he], mnemonicDecode_encWords hash e he hb hh⟩

theorem C3_witness :
    validEntropyLen entropyZ.length = true ∧
      mnemonicEncode hashZ entropyZ = .ok (encWords hashZ entropyZ) ∧
      mnemonicDecode hashZ (encWords hashZ entropyZ) = .ok entropyZ :=
  ⟨by decide,
    C3_codec_roundtrip hashZ entropyZ (by decide) (by decide) (by simp [hashZ])⟩

/-- C4: when `recover_command` is given fewer well-formed shards than the
threshold originally used for splitting — but at least one, with pairwise
distinct index bytes and a common word count — it does not fail: it
returns a well-formed seed phrase (one the mnemonic decoder accepts), with
no error signalled.  Determinism is inherent: `recover_command` is a pure
function of its inputs. -/
theorem C4_under_threshold_no_failure (hash : List Nat → List Bool)
    (hh : ∀ e, 8 ≤ (hash e).length)
    (shards : List MnemonicShard) (es : MnemonicShard → List Nat)
    (hdec : ∀ sh ∈ shards, mnemonicDecode hash sh.words = .ok (es sh))
    (hne : shards ≠ [])
    (hnd : (shards.map (fun sh => sh.index % 256)).Nodup)
    (W : Nat) (hW : ∀ sh ∈ shards, sh.words.length = W)
    (threshold : Nat) (hunder : shards.length < threshold) :
    ∃ p, recover_command hash shards = .ok p ∧
      ∃ e2, mnemonicDecode hash p = .ok e2 := by
  have h := recover_command_wellformed hash hh shards es hdec hne hnd W hW
  refine ⟨_, h, ?_⟩
  cases shards with
  | nil => exact absurd rfl hne
  | cons m0 restM =>
    have hWC : validWordCount W = true := by
      have h1 := (mnemonicDecode_ok_inv (hdec m0 (by simp))).1
      rw [hW m0 (by simp)] at h1
      exact h1
    have hlen0 : (es m0).length = W * 4 / 3 := by
      have h1 := (mnemonicDecode_ok_facts (hdec m0 (by simp))).1
      rw [hW m0 (by simp)] at h1
      exact h1
    have hseclen : ((interpolate ((m0 :: restM).map (fun sh =>
        Share.mk (mkGF sh.index) ((es sh).map mkGF)))).map GF256.val).length =
          W * 4 / 3 := by
      rw [List.length_map, List.map_cons, interpolate_cons, List.length_map,
        List.length_range]
      show ((es m0).map mkGF).length = W * 4 / 3
      rw [List.length_map, hlen0]
    have hvalid : validEntropyLen ((interpolate ((m0 :: restM).map (fun sh =>
        Share.mk (mkGF sh.index) ((es sh).map mkGF)))).map GF256.val).length = true := by
      rw [hseclen]
      exact (wordCount_facts hWC).1
    refine ⟨_, mnemonicDecode_encWords hash _ hvalid ?_ (hh _)⟩
    intro b hb
    rcases List.mem_map.mp hb with ⟨g, _, rfl⟩
    exact g.isLt

set_option maxRecDepth 100000 in
set_option maxHeartbeats 1000000 in
theorem C4_witness :
    ([⟨1, phraseZ⟩] : List MnemonicShard).length < 3 ∧
      ∃ p, recover_command hashZ [⟨1, phraseZ⟩] = .ok p ∧
        ∃ e2, mnemonicDecode hashZ p = .ok e2 :=
  ⟨by decide,
    C4_under_threshold_no_failure hashZ (fun e => by simp [hashZ])
      [⟨1, phraseZ⟩] (fun _ => entropyZ)
      (by intro sh hsh
          simp at hsh
          subst hsh
          rfl)
      (by simp) (by decide) 12
      (by intro sh hsh
          simp at hsh
          subst hsh
          rfl)
      3 (by decide)⟩

/-- C5: `recover_command` fails with the inconsistent-shares error whenever
the supplied well-formed shards do not all decode to equal-length value
vectors (equivalently, equal word counts) or contain two shards with the
same index byte; it succeeds on such input in no case. -/
theorem C5_inconsistent_rejected (hash : List Nat → List Bool)
    (shards : List MnemonicShard) (es : MnemonicShard → List Nat)
    (hdec : ∀ sh ∈ shards, mnemonicDecode hash sh.words = .ok (es sh))
    (hbad : ¬ ((∃ W, ∀ sh ∈ shards, sh.words.length = W) ∧
      (shards.map (fun sh => sh.index % 256)).Nodup)) :
    recover_command hash shards = .error (.RecoverFailed .InconsistentShares) := by
  have hvalides : ∀ sh ∈ shards, validEntropyLen (es sh).length = true := by
    intro sh hsh
    exact (mnemonicDecode_ok_facts (hdec sh hsh)).2.1
  have hmapM : shards.mapM (shardToShare hash) =
      .ok (shards.map (fun sh => Share.mk (mkGF sh.index) ((es sh).map mkGF))) := by
    apply mapM_ok_of_forall
    intro sh hsh
    unfold shardToShare
    simp only [hdec sh hsh]
    rw [if_neg]
    intro hemp
    have h0 : (es sh).length = 0 := by
      cases h : es sh with
      | nil => rfl
      | cons a t =>
        rw [h] at hemp
        simp at hemp
    rcases validEntropyLen_cases (hvalides sh hsh) with h | h | h | h | h <;> omega
  cases shards with
  | nil => exact absurd ⟨⟨0, by simp⟩, by simp⟩ hbad
  | cons m0 restM =>
    unfold recover_command
    simp only [hmapM, List.map_cons]
    rw [sharksRecover_cons]
    by_cases hlenEq : ∀ sh ∈ m0 :: restM, sh.words.length = m0.words.length
    · have hnd_false : ¬ ((m0 :: restM).map (fun sh => sh.index % 256)).Nodup :=
        fun hnd => hbad ⟨⟨m0.words.length, hlenEq⟩, hnd⟩
      have hx_false : ¬ (List.map Share.x
          (Share.mk (mkGF m0.index) ((es m0).map mkGF) ::
            restM.map (fun sh => Share.mk (mkGF sh.index) ((es sh).map mkGF)))).Nodup := by
        intro hx
        apply hnd_false
        have hval : ((List.map Share.x
            (Share.mk (mkGF m0.index) ((es m0).map mkGF) ::
              restM.map (fun sh => Share.mk (mkGF sh.index) ((es sh).map mkGF)))).map
                GF256.val).Nodup :=
          hx.map (fun a b => GF256.val_inj)
        have heq : (List.map Share.x
            (Share.mk (mkGF m0.index) ((es m0).map mkGF) ::
              restM.map (fun sh => Share.mk (mkGF sh.index) ((es sh).map mkGF)))).map
                GF256.val = (m0 :: restM).map (fun sh => sh.index % 256) := by
          simp only [List.map_cons, List.map_map]
          rfl
        rw [heq] at hval
        exact hval
      have hall : ((restM.map (fun sh => Share.mk (mkGF sh.index)
          ((es sh).map mkGF))).all (fun s =>
            s.y.length == ((es m0).map mkGF).length)) = true := by
        rw [List.all_eq_true]
        intro s hs
        rcases List.mem_map.mp hs with ⟨sh, hsh, rfl⟩
        show (((es sh).map mkGF).length == ((es m0).map mkGF).length) = true
        rw [beq_iff_eq, List.length_map, List.length_map]
        have h1 := (mnemonicDecode_ok_facts (hdec sh (by simp [hsh]))).1
        have h2 := (mnemonicDecode_ok_facts (hdec m0 (by simp))).1
        rw [h1, h2, hlenEq sh (by simp [hsh])]
      rw [if_pos hall, if_neg hx_false]
    · push_neg at hlenEq
      obtain ⟨sh, hsh, hneq⟩ := hlenEq
      have hsh2 : sh ∈ restM := by
        rcases List.mem_cons.mp hsh with h | h
        · exact absurd (by rw [h]) hneq
        · exact h
      have hall_false : ¬ ((restM.map (fun sh => Share.mk (mkGF sh.index)
          ((es sh).map mkGF))).all (fun s =>
            s.y.length == ((es m0).map mkGF).length) = true) := by
        rw [List.all_eq_true]
        intro hall
        have h1 := hall _ (List.mem_map.mpr ⟨sh, hsh2, rfl⟩)
        rw [beq_iff_eq, List.length_map, List.length_map] at h1
        have h2 := (mnemonicDecode_ok_facts (hdec sh hsh)).1
        have h3 := (mnemonicDecode_ok_facts (hdec m0 (by simp))).1
        rw [h2, h3] at h1
        have hWC1 := (mnemonicDecode_ok_inv (hdec sh hsh)).1
        have hWC2 := (mnemonicDecode_ok_inv (hdec m0 (by simp))).1
        exact hneq (wordCount_of_entropyLen hWC1 hWC2 h1)
      rw [if_neg hall_false]

set_option maxRecDepth 100000 in
set_option maxHeartbeats 1000000 in
theorem C5_witness :
    recover_command hashZ [⟨1, phraseZ⟩, ⟨1, phraseZ⟩] =
      .error (.RecoverFailed .InconsistentShares) :=
  C5_inconsistent_rejected hashZ [⟨1, phraseZ⟩, ⟨1, phraseZ⟩] (fun _ => entropyZ)
    (by intro sh hsh
        simp at hsh
        subst hsh
        rfl)
    (by intro hc
        exact absurd hc.2 (by decide))

/-- C6 (amended): parsing a shard line with at least two whitespace-separated
tokens treats the leading token as the index; it fails with `InvalidIndex`
exactly when that token is not an integer in the range 0–255 as accepted by
Rust `u8::from_str` (which admits `0` and an optional leading `+`), and
otherwise passes the remaining tokens to the mnemonic decoder, propagating
its failures as `InvalidMnemonic`.  The claim's range "1–255" is wrong:
an index token of `0` parses successfully, so a line such as `"0 a"` never
reaches `InvalidIndex`. -/
theorem C6_index_parse (hash : List Nat → List Bool)
    (lookup : List Char → Option Nat) (line : List Char)
    (hlen : 2 ≤ (splitWs line).length) :
    (parseU8 ((splitWs line).headD []) = none →
      shardFromLine hash lookup line = .error .InvalidIndex) ∧
    ∀ idx, parseU8 ((splitWs line).headD []) = some idx →
      idx ≤ 255 ∧
      (∀ e, mnemonicDecode hash
          (((splitWs line).drop 1).map (fun t => (lookup t).getD 2048)) = .error e →
        shardFromLine hash lookup line = .error (.InvalidMnemonic e)) ∧
      (∀ entropy, mnemonicDecode hash
          (((splitWs line).drop 1).map (fun t => (lookup t).getD 2048)) = .ok entropy →
        shardFromLine hash lookup line =
          .ok ⟨idx, ((splitWs line).drop 1).map (fun t => (lookup t).getD 2048)⟩) := by
  constructor
  · intro hp
    unfold shardFromLine
    rw [if_neg (by omega)]
    simp only [hp]
  · intro idx hp
    refine ⟨parseU8_le hp, ?_, ?_⟩
    · intro e he
      unfold shardFromLine
      rw [if_neg (by omega)]
      simp only [hp, he]
    · intro entropy he
      unfold shardFromLine
      rw [if_neg (by omega)]
      simp only [hp, he]

theorem C6_witness :
    2 ≤ (splitWs "abc hello world".toList).length ∧
      shardFromLine hashZ lookupZ "abc hello world".toList = .error .InvalidIndex :=
  ⟨by decide, (C6_index_parse hashZ lookupZ "abc hello world".toList (by decide)).1 rfl⟩

/-- C6 counterexample: the shard line `"0 a"` has a leading index token `0`,
outside the claimed accepted range 1–255, yet parsing does not fail with
`InvalidIndex`: the index parses and the failure reported is the mnemonic
decoder's word-count error. -/
theorem C6_counterexample :
    shardFromLine hashZ lookupZ "0 a".toList =
        .error (.InvalidMnemonic .InvalidWordCount) ∧
      shardFromLine hashZ lookupZ "0 a".toList ≠
        .error .InvalidIndex := by
  refine ⟨rfl, ?_⟩
  intro hc
  rw [(rfl : shardFromLine hashZ lookupZ "0 a".toList =
      .error (.InvalidMnemonic .InvalidWordCount))] at hc
  injection hc with h
  exact ParseError.noConfusion h

/-- C7 (amended): recovery fails only when given zero parsed shards, with
the not-enough-shares error; given exactly one well-formed shard it does
not fail — it succeeds and returns that shard's own phrase, because the
Rust code sets the sharks threshold to the number of supplied shards
rather than to a stored minimum of two. -/
theorem C7_min_shards (hash : List Nat → List Bool)
    (hh : ∀ e, 8 ≤ (hash e).length) :
    recover_command hash [] = .error (.RecoverFailed .NotEnoughShares) ∧
    ∀ (idx : Nat) (ws e : List Nat), mnemonicDecode hash ws = .ok e →
      recover_command hash [⟨idx, ws⟩] = .ok ws := by
  constructor
  · rfl
  · intro idx ws e hdec
    have h := recover_command_wellformed hash hh [⟨idx, ws⟩] (fun _ => e)
      (by intro sh hsh
          simp at hsh
          subst hsh
          exact hdec)
      (by simp) (by simp) ws.length
      (by intro sh hsh
          simp at hsh
          subst hsh
          rfl)
    rw [h, List.map_cons, List.map_nil, interpolate_singleton]
    show Except.ok (encWords hash ((e.map mkGF).map GF256.val)) = _
    rw [map_mkGF_val e (mnemonicDecode_ok_facts hdec).2.2,
      mnemonicEncode_ok_inv (mnemonicEncode_decode hdec)]

set_option maxRecDepth 100000 in
set_option maxHeartbeats 1000000 in
theorem C7_witness :
    recover_command hashZ [] = .error (.RecoverFailed .NotEnoughShares) ∧
      recover_command hashZ [⟨1, phraseZ⟩] = .ok phraseZ :=
  ⟨(C7_min_shards hashZ (fun e => by simp [hashZ])).1,
    (C7_min_shards hashZ (fun e => by simp [hashZ])).2 1 phraseZ entropyZ rfl⟩

set_option maxRecDepth 100000 in
set_option maxHeartbeats 1000000 in
/-- C7 counterexample: a single well-formed shard — fewer than the claimed
minimum of two — does not make `recover_command` fail: it returns the
shard's own phrase. -/
theorem C7_counterexample :
    recover_command hashZ [⟨1, phraseZ⟩] = .ok phraseZ ∧
      ∀ err, recover_command hashZ [⟨1, phraseZ⟩] ≠ .error err := by
  refine ⟨rfl, ?_⟩
  intro err hc
  rw [(rfl : recover_command hashZ [⟨1, phraseZ⟩] = .ok phraseZ)] at hc
  exact Except.noConfusion hc

/-- C8: for every seed phrase that decodes and every `T ≤ N ≤ 255`,
`split_command` returns exactly `N` shards whose indices, in order, are
exactly `1, 2, ..., N` — so the `k`-th shard carries index `k`, and the
indices are all nonzero and pairwise distinct. -/
theorem C8_shard_indices (hash : List Nat → List Bool) (phrase entropy : List Nat)
    (numShards threshold : Nat) (coeffs : Nat → List GF256)
    (hd : mnemonicDecode hash phrase = .ok entropy)
    (hTN : threshold ≤ numShards) (hN : numShards ≤ 255)
    (shards : List MnemonicShard)
    (hsplit : split_command hash phrase numShards threshold coeffs = .ok shards) :
    shards.length = numShards ∧
      shards.map MnemonicShard.index = (List.range numShards).map (fun j => j + 1) := by
  have hspl := split_command_ok hash phrase numShards threshold coeffs entropy hd hTN
  rw [hsplit] at hspl
  injection hspl with h2
  subst h2
  constructor
  · rw [List.length_map, deal_length]
  · rw [List.map_map]
    unfold deal
    rw [List.map_map]
    apply List.map_congr_left
    intro j hj
    show (mkGF (j + 1)).val = j + 1
    rw [val_mkGF]
    exact Nat.mod_eq_of_lt (by have := List.mem_range.mp hj; omega)

set_option maxRecDepth 100000 in
set_option maxHeartbeats 1000000 in
theorem C8_witness :
    shardsZ.length = 3 ∧ shardsZ.map MnemonicShard.index = [1, 2, 3] := by
  have h := C8_shard_indices hashZ phraseZ entropyZ 3 2 coeffsZ rfl
    (by decide) (by decide) shardsZ rfl
  exact ⟨h.1, h.2.trans (by decide)⟩

/-- C9: every share dealt by the splitter has a value vector whose length
equals the length of the decoded secret entropy, and consequently every
output shard's phrase has the same word count as the input seed phrase. -/
theorem C9_share_and_word_lengths (hash : List Nat → List Bool)
    (hh : ∀ e, 8 ≤ (hash e).length) (phrase entropy : List Nat)
    (numShards threshold : Nat) (coeffs : Nat → List GF256)
    (hd : mnemonicDecode hash phrase = .ok entropy)
    (hTN : threshold ≤ numShards)
    (shards : List MnemonicShard)
    (hsplit : split_command hash phrase numShards threshold coeffs = .ok shards) :
    (∀ sh ∈ deal entropy threshold numShards coeffs, sh.y.length = entropy.length) ∧
      ∀ ms ∈ shards, ms.words.length = phrase.length := by
  refine ⟨deal_y_length entropy threshold numShards coeffs, ?_⟩
  have hspl := split_command_ok hash phrase numShards threshold coeffs entropy hd hTN
  rw [hsplit] at hspl
  injection hspl with h2
  subst h2
  intro ms hms
  rcases List.mem_map.mp hms with ⟨sh, hsh, rfl⟩
  show (encWords hash (sh.y.map GF256.val)).length = phrase.length
  have hylen : (sh.y.map GF256.val).length = entropy.length := by
    rw [List.length_map]
    exact deal_y_length entropy threshold numShards coeffs sh hsh
  have hvalid : validEntropyLen entropy.length = true :=
    (mnemonicDecode_ok_facts hd).2.1
  have hphrase : encWords hash entropy = phrase :=
    mnemonicEncode_ok_inv (mnemonicEncode_decode hd)
  rw [encWords_length hash _ (by rw [hylen]; exact hvalid) (hh _), hylen,
    ← hphrase, encWords_length hash entropy hvalid (hh entropy)]

set_option maxRecDepth 100000 in
set_option maxHeartbeats 1000000 in
theorem C9_witness :
    ((deal entropyZ 2 3 coeffsZ).all (fun sh => sh.y.length == entropyZ.length)) = true ∧
      (shardsZ.all (fun ms => ms.words.length == phraseZ.length)) = true := by
  have h := C9_share_and_word_lengths hashZ (fun e => by simp [hashZ]) phraseZ entropyZ
    3 2 coeffsZ rfl (by decide) shardsZ rfl
  constructor
  · rw [List.all_eq_true]
    intro sh hsh
    rw [beq_iff_eq]
    exact h.1 sh hsh
  · rw [List.all_eq_true]
    intro ms hms
    rw [beq_iff_eq]
    exact h.2 ms hms

/-- C10: for every seed phrase that decodes and every threshold at most the
shard count, `split_command` succeeds outright — so the error branch that
would fire if re-encoding a dealt share's value bytes failed is
unreachable, because each share's value vector has the same valid entropy
length as the decoded secret. -/
theorem C10_encode_branch_unreachable (hash : List Nat → List Bool)
    (phrase entropy : List Nat) (numShards threshold : Nat)
    (coeffs : Nat → List GF256)
    (hd : mnemonicDecode hash phrase = .ok entropy)
    (hTN : threshold ≤ numShards) :
    ∃ l, split_command hash phrase numShards threshold coeffs = .ok l :=
  ⟨_, split_command_ok hash phrase numShards threshold coeffs entropy hd hTN⟩

set_option maxRecDepth 100000 in
set_option maxHeartbeats 1000000 in
theorem C10_witness :
    exceptOk (split_command hashZ phraseZ 3 2 coeffsZ) = true := by
  obtain ⟨l, hl⟩ := C10_encode_branch_unreachable hashZ phraseZ entropyZ 3 2 coeffsZ
    rfl (by decide)
  rw [hl]
  rfl

end BipShard
